import Mathlib

set_option maxRecDepth 10000

/- Verification development for the adjudicator rules engine.

   Shallow embedding of `src/adjudicator/RulesGraph.py` and
   `src/adjudicator/RuleEngine.py`.  Python types (the nodes of the rules
   graph) are modelled as tags of type `Option Nat`: `none` is the
   `NoInputs` sentinel class, `some n` is an ordinary user type.  The
   recursive procedures `get_rules_for_output_type` and `find_path`
   (whose termination relies on acyclicity of the graph) are modelled with
   an explicit fuel parameter; running out of fuel is reported by a
   distinguished result that is propagated outward, so a computation that
   completes within its fuel behaves exactly like the Python code. -/

abbrev PyType := Option Nat

/-- The `NoInputs` sentinel class used for rules without input types. -/
def NoInputsTy : PyType := none

/-- Modelled from the spec: `Rule` (Rule.py is not part of the sources):
an immutable descriptor with a unique string `id`, a set of
`input_types`, and one `output_type`; equality and hashing are by `id`
(§4.1), which is why all deduplication below compares rule ids.  The
executable body is kept separately (see `RuleEngine.impl`) so that rules
remain comparable values. -/
structure Rule where
  id : String
  input_types : List PyType
  output_type : PyType
deriving DecidableEq, Repr

instance : Inhabited Rule := ⟨⟨"", [], none⟩⟩

/-- `Edge` data attached to every edge of the `MultiDiGraph`: either a
`rule` edge carrying its `Rule`, or a `union` membership edge. -/
inductive EdgeData where
  | ruleE (r : Rule)
  | unionE
deriving DecidableEq, Repr

/-- The `networkx.MultiDiGraph`: a node list (set semantics: nodes are
added only once) and a list of directed edges `(src, dst, data)`;
parallel edges are kept, as in a multigraph. -/
structure Graph where
  nodes : List PyType
  edges : List (PyType × PyType × EdgeData)
deriving DecidableEq, Repr

def Graph.add_node (g : Graph) (v : PyType) : Graph :=
  if v ∈ g.nodes then g else { g with nodes := g.nodes ++ [v] }

/-- `add_edge` also inserts both endpoints as nodes (networkx semantics). -/
def Graph.add_edge (g : Graph) (u v : PyType) (d : EdgeData) : Graph :=
  let g' := (g.add_node u).add_node v
  { g' with edges := g'.edges ++ [(u, v, d)] }

/-- Modelled from the spec: `Signature` (Signature.py is not part of the
sources): a set of available input types plus one requested output type. -/
structure Signature where
  inputs : List PyType
  output_type : PyType
deriving DecidableEq, Repr

/-- `v` has no incoming edge whose source is still in `rem`. -/
def noInEdge (rem : List PyType) (edges : List (PyType × PyType × EdgeData))
    (v : PyType) : Bool :=
  !(edges.any fun e => e.2.1 == v && rem.contains e.1)

/-- Kahn's algorithm, the standard way (also networkx's) to decide
`is_directed_acyclic_graph`: repeatedly remove a node with no incoming
edge from the remaining subgraph; the graph is acyclic iff every node can
be removed.  One unit of fuel is spent per removed node, so fuel
`rem.length` always suffices. -/
def kahn (edges : List (PyType × PyType × EdgeData)) :
    Nat → List PyType → Option (List PyType)
  | 0, rem => if rem.isEmpty then some [] else none
  | fuel+1, rem =>
    match rem.find? (noInEdge rem edges) with
    | some v => (kahn edges fuel (rem.erase v)).map (v :: ·)
    | none => if rem.isEmpty then some [] else none

def Graph.topo (g : Graph) : Option (List PyType) :=
  kahn g.edges g.nodes.length g.nodes

def is_directed_acyclic_graph (g : Graph) : Bool := g.topo.isSome

/-- `RulesGraph`: the id-indexed rule dictionary (`_rules`, insertion
ordered as a Python dict), the `_unions` mapping from a union type to the
set of its registered members, and the `_graph` multigraph. -/
structure RulesGraph where
  rules : List (String × Rule)
  unions : List (PyType × List PyType)
  graph : Graph
deriving DecidableEq, Repr

/-- A `RulesGraph()` constructed with no rules. -/
def emptyRulesGraph : RulesGraph := ⟨[], [], ⟨[], []⟩⟩

/-- The two `ValueError`s `add_rules` can raise. -/
inductive AddErr where
  | dupId (id : String)
  | cyclic
deriving DecidableEq, Repr

/-- The per-rule body of the `add_rules` loop: store the rule in
`_rules`, add its input nodes and output node, and add one rule edge from
each input type (or from the `NoInputs` sentinel when there are none) to
the output type. -/
def addRuleOne (g : RulesGraph) (r : Rule) : RulesGraph :=
  let gr := r.input_types.foldl Graph.add_node g.graph
  let gr := gr.add_node r.output_type
  let ins := if r.input_types.isEmpty then [NoInputsTy] else r.input_types
  let gr := ins.foldl (fun acc t => acc.add_edge t r.output_type (.ruleE r)) gr
  { rules := g.rules ++ [(r.id, r)], unions := g.unions, graph := gr }

/-- The `for rule in rules` loop of `add_rules`: each rule is checked for
a duplicate id and then added; a duplicate raises immediately, leaving
the mutations made for the previous rules of the batch in place.  The
returned pair is (state of the graph when the call returns or raises,
raised error if any). -/
def addRulesLoop : RulesGraph → List Rule → RulesGraph × Option AddErr
  | g, [] => (g, none)
  | g, r :: rs =>
    if (g.rules.lookup r.id).isSome then (g, some (.dupId r.id))
    else addRulesLoop (addRuleOne g r) rs

/-- `RulesGraph.add_rules`: run the loop, then check acyclicity of the
mutated graph; a cyclic graph raises `ValueError` but performs no
rollback. -/
def RulesGraph.add_rules (g : RulesGraph) (rs : List Rule) :
    RulesGraph × Option AddErr :=
  match addRulesLoop g rs with
  | (g', some e) => (g', some e)
  | (g', none) =>
    if is_directed_acyclic_graph g'.graph then (g', none)
    else (g', some .cyclic)

/-- `RulesGraph(rules)`: fresh `_rules`/`_unions`/`_graph`, then
`add_rules(rules)`.  The first component is the state of the constructed
object (even when the constructor raises). -/
def mkRulesGraph (rs : List Rule) : RulesGraph × Option AddErr :=
  emptyRulesGraph.add_rules rs

/-- `list(other._rules.values())`: the rules of a graph in insertion
order. -/
def ruleValues (g : RulesGraph) : List Rule := g.rules.map (·.2)

/-- `RulesGraph(other)` for an existing graph `other`: only
`other._rules.values()` is passed on; `_unions` starts empty. -/
def copyRulesGraph (g : RulesGraph) : RulesGraph × Option AddErr :=
  mkRulesGraph (ruleValues g)

/-- `self._unions[union_type].add(member_type)` on the `defaultdict`. -/
def unionsAdd : List (PyType × List PyType) → PyType → PyType →
    List (PyType × List PyType)
  | [], u, m => [(u, [m])]
  | (k, v) :: rest, u, m =>
    if k = u then (k, if m ∈ v then v else v ++ [m]) :: rest
    else (k, v) :: unionsAdd rest u m

/-- `RulesGraph.register_union_member`: record the member in `_unions`,
add both nodes, and add a `union` edge member → union.  No acyclicity
check is performed and nothing can fail. -/
def RulesGraph.register_union_member (g : RulesGraph) (u m : PyType) :
    RulesGraph :=
  { rules := g.rules,
    unions := unionsAdd g.unions u m,
    graph := ((g.graph.add_node u).add_node m).add_edge m u .unionE }

/-- `RulesGraph.get_union_members` (`defaultdict` lookup: missing key
yields the empty set). -/
def RulesGraph.get_union_members (g : RulesGraph) (t : PyType) :
    List PyType :=
  (g.unions.lookup t).getD []

/-- `self._graph.in_edges(output_type)` together with its edge data. -/
def inEdges (g : Graph) (t : PyType) : List (PyType × PyType × EdgeData) :=
  g.edges.filter (fun e => e.2.1 == t)

/-- `rules.add(r)` on a Python `set` of rules: rules hash/compare by id. -/
def insertRuleD (acc : List Rule) (r : Rule) : List Rule :=
  if acc.any (fun x => x.id == r.id) then acc else acc ++ [r]

/-- `rules.update(s)` on a Python `set` of rules. -/
def unionRules (acc : List Rule) (s : List Rule) : List Rule :=
  s.foldl insertRuleD acc

/-- The edge-data loop of `get_rules_for_output_type`: a `rule` edge
contributes its rule, a `union` edge from `m` contributes every rule of
the recursive call on `m` (`recur`); `none` signals fuel exhaustion. -/
def getRulesAux (recur : PyType → Option (List Rule)) :
    List (PyType × PyType × EdgeData) → List Rule → Option (List Rule)
  | [], acc => some acc
  | e :: es, acc =>
    match e.2.2 with
    | .ruleE r => getRulesAux recur es (insertRuleD acc r)
    | .unionE =>
      match recur e.1 with
      | none => none
      | some s => getRulesAux recur es (unionRules acc s)

/-- `RulesGraph.get_rules_for_output_type`: empty for a type that is not
a node, otherwise the rules collected over the incoming edges, following
`union` edges recursively. -/
def RulesGraph.get_rules_for_output_type (g : RulesGraph) :
    Nat → PyType → Option (List Rule)
  | 0, _ => none
  | fuel+1, t =>
    if t ∈ g.graph.nodes then
      getRulesAux (g.get_rules_for_output_type fuel) (inEdges g.graph t) []
    else some []

/-- Result of `find_path`: a returned plan, one of the two
`RuleResolveError`s (`MultipleMatchingRulesError` carrying its competing
plans), or fuel exhaustion. -/
inductive FPRes where
  | ok (plan : List Rule)
  | noMatch
  | multiple (plans : List (List Rule))
  | fuelOut
deriving DecidableEq, Repr

/-- Result of resolving the missing inputs of one candidate rule:
the accumulated `rules_to_satify_missing_inputs`, a caught
`RuleResolveError` (the candidate is skipped), or fuel exhaustion. -/
inductive PreRes where
  | ok (rs : List Rule)
  | resolveErr
  | fuelOut
deriving DecidableEq, Repr

/-- `rule.input_types - sig.inputs` (set difference). -/
def listDiff (a b : List PyType) : List PyType :=
  a.filter (fun t => !(b.contains t))

/-- The inner double loop of `find_path`: for each missing input type,
recursively find a path and append its rules (deduplicated by rule id,
first-seen order) to the accumulator.  Any `RuleResolveError` from the
recursion disqualifies the candidate. -/
def buildPre (fp : Signature → FPRes) (inputs : List PyType) :
    List PyType → List Rule → PreRes
  | [], acc => .ok acc
  | t :: ts, acc =>
    match fp ⟨inputs, t⟩ with
    | .fuelOut => .fuelOut
    | .noMatch => .resolveErr
    | .multiple _ => .resolveErr
    | .ok sub => buildPre fp inputs ts (unionRules acc sub)

/-- The `results` list of `find_path`: one complete plan
`prefix-rules ++ [rule]` per candidate whose missing inputs could all be
resolved, in candidate order. -/
def collectPlans (fp : Signature → FPRes) (inputs : List PyType) :
    List Rule → Option (List (List Rule))
  | [] => some []
  | r :: rest =>
    match buildPre fp inputs (listDiff r.input_types inputs) [] with
    | .fuelOut => none
    | .resolveErr => collectPlans fp inputs rest
    | .ok pre =>
      match collectPlans fp inputs rest with
      | none => none
      | some results => some ((pre ++ [r]) :: results)

/-- `RulesGraph.find_path`: gather the candidates for the output type,
resolve each candidate's missing inputs, then raise
`MultipleMatchingRulesError` for more than one complete plan,
`NoMatchingRulesError` for none, and return the single plan otherwise. -/
def RulesGraph.find_path (g : RulesGraph) : Nat → Signature → FPRes
  | 0, _ => .fuelOut
  | fuel+1, sig =>
    match g.get_rules_for_output_type (fuel+1) sig.output_type with
    | none => .fuelOut
    | some cands =>
      match collectPlans (g.find_path fuel) sig.inputs cands with
      | none => .fuelOut
      | some results =>
        if results.length > 1 then .multiple results
        else
          match results with
          | [] => .noMatch
          | p :: _ => .ok p

/-- Modelled from the spec: `Params` (Params.py is not part of the
sources): a type-keyed bag of values with at most one value per type
(§2, §4.5).  Values are modelled as `Nat`. -/
abbrev Params := List (PyType × Nat)

def pLookup (p : Params) (t : PyType) : Option Nat := p.lookup t

def pTypes (p : Params) : List PyType := p.map (·.1)

/-- Modelled from the spec: `Params.filter(types)` keeps the entries
whose type lies in the given type set (§4.5). -/
def pFilter (p : Params) (ts : List PyType) : Params :=
  p.filter (fun e => ts.contains e.1)

/-- Modelled from the spec: `a | b`, the right-biased union — the right
operand's types override the left's on conflict (§4.5). -/
def pUnion (a b : Params) : Params :=
  a.filter (fun e => (b.lookup e.1).isNone) ++ b

/-- `set(params.types()) | set(facts.types())`. -/
def tyUnion (a b : List PyType) : List PyType :=
  a ++ b.filter (fun t => !(a.contains t))

/-- `RuleEngine`: the graph, the global facts, and the rule bodies.
Modelled from the spec: `Executor.execute` (Executor.py/Cache.py are not
part of the sources) invokes the pure rule body on the filtered inputs
(the cache returns the stored value of the same pure computation, §4.5),
so execution is modelled as the pure function `impl`. -/
structure RuleEngine where
  graph : RulesGraph
  facts : Params
  impl : Rule → Params → Nat

/-- Result of `RuleEngine.get`, recording which rules were executed (by
id, in order).  `emptyPlanAssert` is the `assert len(rules) > 0` failing;
the final `isinstance` assertion is a dynamic reflection check on Python
class objects and is outside this embedding. -/
inductive GetRes where
  | ok (v : Nat) (executed : List String)
  | noMatchErr
  | multipleErr (plans : List (List Rule))
  | emptyPlanAssert
  | fuelOut
deriving DecidableEq, Repr

/-- `self.facts.filter(rule.input_types) | params.filter(rule.input_types)`:
the input bundle handed to one rule of a plan. -/
def ruleInputs (facts params : Params) (r : Rule) : Params :=
  pUnion (pFilter facts r.input_types) (pFilter params r.input_types)

/-- The `for rule in rules` execution loop of `RuleEngine.get`, folding
each output back into `params` under the rule's output type. -/
def execPlan (impl : Rule → Params → Nat) (facts : Params) :
    List Rule → Params → Nat → Nat × List String
  | [], _, out => (out, [])
  | r :: rs, params, _ =>
    let inp := ruleInputs facts params r
    let out := impl r inp
    let res := execPlan impl facts rs (pUnion params [(r.output_type, out)]) out
    (res.1, r.id :: res.2)

/-- `RuleEngine.get`: the facts fast path, then `find_path` on the
signature built from param types and fact types, then plan execution. -/
def RuleEngine.get (e : RuleEngine) (fuel : Nat) (output_type : PyType)
    (params : Params) : GetRes :=
  if params.isEmpty && (pLookup e.facts output_type).isSome then
    .ok ((pLookup e.facts output_type).getD 0) []
  else
    match e.graph.find_path fuel
        ⟨tyUnion (pTypes params) (pTypes e.facts), output_type⟩ with
    | .fuelOut => .fuelOut
    | .noMatch => .noMatchErr
    | .multiple ps => .multipleErr ps
    | .ok plan =>
      if plan.isEmpty then .emptyPlanAssert
      else
        let res := execPlan e.impl e.facts plan params 0
        .ok res.1 res.2

/-- `RuleEngine.assert_facts`: reject any overlap with existing fact
types, otherwise merge (right-biased). -/
def RuleEngine.assert_facts (e : RuleEngine) (new : Params) :
    Option RuleEngine :=
  if (pTypes e.facts).any (fun t => (pTypes new).contains t) then none
  else some { e with facts := pUnion e.facts new }

/-- Rules carried on `rule` edges of the graph. -/
def edgeRules (g : Graph) : List Rule :=
  g.edges.filterMap (fun e =>
    match e.2.2 with
    | .ruleE r => some r
    | .unionE => none)

/-- One `rule` edge is well formed when it points at its rule's output
type and every input type of that rule has its own edge present. -/
def edgeRuleOKb (g : Graph) (e : PyType × PyType × EdgeData) : Bool :=
  match e.2.2 with
  | .unionE => true
  | .ruleE r =>
    e.2.1 == r.output_type &&
    r.input_types.all (fun t => g.edges.contains (t, r.output_type, .ruleE r))

/-- Well-formedness invariant of every `RulesGraph` built through
`add_rules` and `register_union_member`: distinct nodes, edges between
registered nodes, complete and correctly-targeted rule edges, rule ids
determining rules, and the `_rules` dictionary consistent with the
edges. -/
def WF (g : RulesGraph) : Prop :=
  g.graph.nodes.Nodup ∧
  (∀ e ∈ g.graph.edges, e.1 ∈ g.graph.nodes ∧ e.2.1 ∈ g.graph.nodes) ∧
  (∀ e ∈ g.graph.edges, edgeRuleOKb g.graph e = true) ∧
  (∀ x ∈ edgeRules g.graph, ∀ y ∈ edgeRules g.graph, x.id = y.id → x = y) ∧
  (∀ p ∈ g.rules, p.1 = p.2.id ∧ p.2 ∈ edgeRules g.graph)

instance instDecidableWF (g : RulesGraph) : Decidable (WF g) := by
  unfold WF; exact inferInstance

/-- Sources of the incoming edges of `v`. -/
def inSources (edges : List (PyType × PyType × EdgeData)) (v : PyType) :
    List PyType :=
  (edges.filter (fun e => e.2.1 == v)).map (·.1)

def natMaxList (l : List Nat) : Nat := l.foldl max 0

/-- Fueled longest-path computation: `heightF edges fuel v` is the length
of the longest edge path ending at `v`, provided `fuel` exceeds that
length (it stabilizes on acyclic graphs). -/
def heightF (edges : List (PyType × PyType × EdgeData)) :
    Nat → PyType → Nat
  | 0, _ => 0
  | fuel+1, v =>
    natMaxList ((inSources edges v).map (fun u => heightF edges fuel u + 1))

/-- The length of the longest type-to-type edge path ending at `v`
(meaningful on acyclic graphs). -/
def Graph.longestPathTo (g : Graph) (v : PyType) : Nat :=
  heightF g.edges g.nodes.length v

/-- `UPath g a t`: `t` is reachable from `a` through zero or more
`union` membership edges, so a value of type `a` counts as a value of
type `t` during resolution. -/
inductive UPath (g : Graph) : PyType → PyType → Prop where
  | refl (a : PyType) : UPath g a a
  | step {a m t : PyType} : (m, t, EdgeData.unionE) ∈ g.edges →
      UPath g a m → UPath g a t

/-- Every input type of `r` is either among the signature inputs or
producible (up to union membership) by some rule of `ctx`. -/
def CoveredBy (g : Graph) (inputs : List PyType) (ctx : List Rule)
    (r : Rule) : Prop :=
  ∀ t ∈ r.input_types, t ∈ inputs ∨ ∃ x ∈ ctx, UPath g x.output_type t

/-- Dependency order up to union membership: every rule of the plan has
each input type available from the signature inputs or from a rule
appearing earlier in the plan. -/
def DepOrdered (g : Graph) (inputs : List PyType) (plan : List Rule) :
    Prop :=
  ∀ i : Fin plan.length, CoveredBy g inputs (plan.take i.1) (plan.get i)

/-- Literal dependency order as worded in the specification: every rule
of the plan has each input type in the signature inputs or *equal* to
the output type of an earlier rule. -/
def DepOrderedEq (inputs : List PyType) (plan : List Rule) : Prop :=
  ∀ i : Fin plan.length, ∀ t ∈ (plan.get i).input_types,
    t ∈ inputs ∨ ∃ x ∈ plan.take i.1, x.output_type = t

instance instDecidableDepOrderedEq (inputs : List PyType)
    (plan : List Rule) : Decidable (DepOrderedEq inputs plan) := by
  unfold DepOrderedEq; exact inferInstance

/-- A graph all of whose edges are `rule` edges pointing at their rule's
output type — the shape of every graph built by `add_rules` alone
(no union registrations). -/
def RuleEdgesOnly (G : Graph) : Prop :=
  ∀ e ∈ G.edges, ∃ r, e.2.2 = EdgeData.ruleE r ∧ e.2.1 = r.output_type

/-- Position of the first occurrence of `v` in `l` (length of `l` when
absent); used to rank nodes along a topological order. -/
def idxIn : List PyType → PyType → Nat
  | [], _ => 0
  | x :: l, v => if x = v then 0 else idxIn l v + 1

/-- The batch `rs` reuses no rule id against the graph `g`: every id of
the batch is absent from `g._rules` and the batch's ids are mutually
distinct.  Its negation is exactly "the batch reuses an
already-registered rule id" (including reuse between two rules of the
same batch), the condition under which the `add_rules` loop raises the
duplicate-identifier error. -/
def dupFree (g : RulesGraph) (rs : List Rule) : Prop :=
  (∀ r ∈ rs, g.rules.lookup r.id = none) ∧ (rs.map (·.id)).Nodup

instance instDecidableDupFree (g : RulesGraph) (rs : List Rule) :
    Decidable (dupFree g rs) := by
  unfold dupFree
  exact inferInstance

/- ------------------------------------------------------------------ -/
/- Concrete fixtures used in witnesses and counterexamples.           -/
/- ------------------------------------------------------------------ -/

def tyStr : PyType := some 0

def tyInt : PyType := some 1

def tyBool : PyType := some 2

def tyFloat : PyType := some 3

def r1 : Rule := ⟨"r1", [tyStr], tyInt⟩

def r2 : Rule := ⟨"r2", [tyBool], tyInt⟩

def r3 : Rule := ⟨"r3", [tyStr], tyBool⟩

/-- The diamond graph of the test
`test__RulesGraph__find_path__cannot_resolve_diamond_dependency`:
`r1 : {str} → int`, `r2 : {bool} → int`, `r3 : {str} → bool`. -/
def gD : RulesGraph := (mkRulesGraph [r1, r2, r3]).1

/-- A batch whose rule edges form the cycle `A → B → A`. -/
def cycA : PyType := some 20

def cycB : PyType := some 21

def crAB : Rule := ⟨"crAB", [cycA], cycB⟩

def crBA : Rule := ⟨"crBA", [cycB], cycA⟩

/-- A rule reusing the id of `crAB`, to exercise the
duplicate-identifier failure of `add_rules`. -/
def crABdup : Rule := ⟨"crAB", [cycB], cycA⟩

/-- Union fixture of `test__RulesGraph__get_rules_for_output_type__with_union_membership`:
one rule producing `SpecificA`, with `SpecificA` registered under `A`. -/
def tyA : PyType := some 10

def tySpecA : PyType := some 11

def rSpecA : Rule := ⟨"r1", [tyStr], tySpecA⟩

def gU : RulesGraph :=
  ((mkRulesGraph [rSpecA]).1).register_union_member tyA tySpecA

/-- A graph where registering a union member closes a cycle: the rule
gives the edge `U → M`, the union registration adds `M → U`. -/
def tyM8 : PyType := some 40

def tyU8 : PyType := some 41

def rUM8 : Rule := ⟨"rUM8", [tyU8], tyM8⟩

def gCyc8 : RulesGraph :=
  ((mkRulesGraph [rUM8]).1).register_union_member tyU8 tyM8

/-- Union fixture refuting literal dependency order: `ru1 : {A} → M`,
`ru2 : {U} → B`, with `M` registered as a member of `U`; the only plan
for `(A) → B` is `[ru1, ru2]`, and no rule in it has output type `U`. -/
def tyA6 : PyType := some 33

def tyM6 : PyType := some 30

def tyU6 : PyType := some 31

def tyB6 : PyType := some 32

def ru1 : Rule := ⟨"ru1", [tyA6], tyM6⟩

def ru2 : Rule := ⟨"ru2", [tyU6], tyB6⟩

def gC6 : RulesGraph :=
  ((mkRulesGraph [ru1, ru2]).1).register_union_member tyU6 tyM6

/-- Engine with no rules and the single fact `str ↦ 10`. -/
def engC2 : RuleEngine := ⟨emptyRulesGraph, [(tyStr, 10)], fun _ _ => 0⟩

/-- Engine with no rules and no facts. -/
def engBase : RuleEngine := ⟨emptyRulesGraph, [], fun _ _ => 0⟩

/-- `engBase` after asserting the fact `int ↦ 7`. -/
def engW : RuleEngine := { engBase with facts := pUnion engBase.facts [(tyInt, 7)] }

/-- Engine over the diamond graph, no facts. -/
def engD : RuleEngine := ⟨gD, [], fun _ _ => 0⟩

/-- A rule consuming `int`, used to exercise `ruleInputs`. -/
def rIn : Rule := ⟨"rIn", [tyInt], tyFloat⟩

/- ------------------------------------------------------------------ -/
/- General lemmas about association-list lookups.                     -/
/- ------------------------------------------------------------------ -/

theorem lookup_append_of_none {α β : Type} [BEq α] (a : α) :
    ∀ l₁ l₂ : List (α × β), l₁.lookup a = none →
      (l₁ ++ l₂).lookup a = l₂.lookup a
  | [], _, _ => rfl
  | (k, b) :: t, l₂, h => by
    revert h
    simp only [List.lookup, List.cons_append]
    cases a == k with
    | false => exact fun h => lookup_append_of_none a t l₂ h
    | true => exact fun h => Option.noConfusion h

theorem pFilter_lookup (ts : List PyType) (t : PyType) (ht : t ∈ ts) :
    ∀ p : Params, pLookup (pFilter p ts) t = pLookup p t
  | [] => rfl
  | (k, x) :: rest => by
    simp only [pFilter, pLookup, List.filter_cons]
    by_cases hk : t = k
    · subst hk
      have hc : ts.contains t = true := List.elem_iff.mpr ht
      simp only [hc, if_true, List.lookup, beq_self_eq_true]
    · have hne : (t == k) = false := beq_eq_false_iff_ne.mpr hk
      by_cases hc : (ts.contains k) = true
      · simp only [hc, if_true, List.lookup, hne]
        exact pFilter_lookup ts t ht rest
      · simp only [Bool.not_eq_true] at hc
        simp only [hc, Bool.false_eq_true, if_false, List.lookup, hne]
        exact pFilter_lookup ts t ht rest

theorem pUnion_left_lookup_none (b : Params) (t : PyType) (w : Nat)
    (h : pLookup b t = some w) :
    ∀ a : Params,
      (a.filter (fun e => (b.lookup e.1).isNone)).lookup t = none
  | [] => rfl
  | (k, x) :: rest => by
    simp only [List.filter_cons]
    by_cases hn : (b.lookup k).isNone = true
    · simp only [hn, if_true, List.lookup]
      have hne : (t == k) = false := by
        refine beq_eq_false_iff_ne.mpr ?_
        intro he
        subst he
        rw [show pLookup b t = b.lookup t from rfl] at h
        rw [h] at hn
        simp at hn
      rw [hne]
      exact pUnion_left_lookup_none b t w h rest
    · simp only [Bool.not_eq_true] at hn
      simp only [hn, Bool.false_eq_true, if_false]
      exact pUnion_left_lookup_none b t w h rest

theorem pUnion_lookup_right (a b : Params) (t : PyType) (w : Nat)
    (h : pLookup b t = some w) : pLookup (pUnion a b) t = some w := by
  unfold pUnion pLookup
  rw [lookup_append_of_none t _ b (pUnion_left_lookup_none b t w h a)]
  exact h

/- ------------------------------------------------------------------ -/
/- Claim C4: the concrete diamond scenario.                           -/
/- ------------------------------------------------------------------ -/

/-- Claim C4: in the graph with exactly `r1 : {str} → int`,
`r2 : {bool} → int`, `r3 : {str} → bool`, `find_path({bool}, int)`
returns `[r2]`; `find_path({str}, int)` raises
`MultipleMatchingRulesError` carrying exactly the plans `[r1]` and
`[r3, r2]` (two plans, so equal to the claimed set); and
`find_path({float}, bool)` raises `NoMatchingRulesError`. -/
theorem claim_C4_diamond_scenario :
    gD.find_path 5 ⟨[tyBool], tyInt⟩ = FPRes.ok [r2] ∧
    gD.find_path 5 ⟨[tyStr], tyInt⟩ = FPRes.multiple [[r1], [r3, r2]] ∧
    gD.find_path 5 ⟨[tyFloat], tyBool⟩ = FPRes.noMatch := by
  refine ⟨by decide, by decide, by decide⟩

/- ------------------------------------------------------------------ -/
/- Claim C1: add_rules failure behaviour.                             -/
/- ------------------------------------------------------------------ -/

theorem addRuleOne_rules (g : RulesGraph) (r : Rule) :
    (addRuleOne g r).rules = g.rules ++ [(r.id, r)] := rfl

theorem addRulesLoop_err_is_dup :
    ∀ (rs : List Rule) (g g' : RulesGraph) (e : AddErr),
      addRulesLoop g rs = (g', some e) → ∃ i, e = AddErr.dupId i
  | [], g, g', e, h => by simp [addRulesLoop] at h
  | r :: rs, g, g', e, h => by
    simp only [addRulesLoop] at h
    by_cases hd : (g.rules.lookup r.id).isSome = true
    · rw [if_pos hd] at h
      injection h with h1 h2
      injection h2 with h3
      exact ⟨r.id, h3.symm⟩
    · rw [if_neg hd] at h
      exact addRulesLoop_err_is_dup rs (addRuleOne g r) g' e h

theorem addRulesLoop_fresh :
    ∀ (rs : List Rule) (g : RulesGraph),
      (∀ r ∈ rs, g.rules.lookup r.id = none) → (rs.map (·.id)).Nodup →
      addRulesLoop g rs = (rs.foldl addRuleOne g, none)
  | [], g, _, _ => rfl
  | r :: rs, g, hfresh, hnodup => by
    have hr : g.rules.lookup r.id = none := hfresh r (by simp)
    simp only [addRulesLoop, hr, Option.isSome_none, Bool.false_eq_true,
      if_false, List.foldl_cons]
    refine addRulesLoop_fresh rs (addRuleOne g r) ?_ ?_
    · intro r' hr'
      rw [addRuleOne_rules]
      rw [lookup_append_of_none _ _ _ (hfresh r' (List.mem_cons_of_mem r hr'))]
      have hid : r'.id ≠ r.id := by
        simp only [List.map_cons, List.nodup_cons] at hnodup
        intro he
        exact hnodup.1 (he ▸ List.mem_map_of_mem (·.id) hr')
      simp only [List.lookup]
      rw [beq_eq_false_iff_ne.mpr hid]
    · simp only [List.map_cons, List.nodup_cons] at hnodup
      exact hnodup.2

theorem foldl_addRuleOne_rules :
    ∀ (rs : List Rule) (g : RulesGraph),
      (rs.foldl addRuleOne g).rules = g.rules ++ rs.map (fun r => (r.id, r))
  | [], g => by simp
  | r :: rs, g => by
    simp only [List.foldl_cons, List.map_cons]
    rw [foldl_addRuleOne_rules rs (addRuleOne g r), addRuleOne_rules]
    simp

/-- Claim C1 counterexample: adding the cyclic batch
`[crAB : {A} → B, crBA : {B} → A]` to the empty graph raises the
cyclic-graph error, yet the rule set (and node and edge sets) of the
graph are changed — both rules remain registered, refuting
"leaves g completely unchanged". -/
theorem claim_C1_counterexample :
    (mkRulesGraph [crAB, crBA]).2 = some AddErr.cyclic ∧
    (mkRulesGraph [crAB, crBA]).1.rules ≠ emptyRulesGraph.rules ∧
    (mkRulesGraph [crAB, crBA]).1.graph.nodes ≠ emptyRulesGraph.graph.nodes ∧
    (mkRulesGraph [crAB, crBA]).1.graph.edges ≠ emptyRulesGraph.graph.edges := by
  refine ⟨by decide, by decide, by decide, by decide⟩

theorem lookup_append_left {α β : Type} [BEq α] (a : α) :
    ∀ (l₁ l₂ : List (α × β)) (b : β), l₁.lookup a = some b →
      (l₁ ++ l₂).lookup a = some b
  | [], _, b, h => by simp [List.lookup] at h
  | (k, v) :: t, l₂, b, h => by
    revert h
    simp only [List.lookup, List.cons_append]
    cases a == k with
    | true => exact fun h => h
    | false => exact fun h => lookup_append_left a t l₂ b h

theorem dupFree_cons (g : RulesGraph) (r : Rule) (rest : List Rule)
    (hfresh : g.rules.lookup r.id = none) :
    dupFree g (r :: rest) ↔ dupFree (addRuleOne g r) rest := by
  unfold dupFree
  constructor
  · rintro ⟨hf, hn⟩
    simp only [List.map_cons, List.nodup_cons] at hn
    refine ⟨?_, hn.2⟩
    intro x hx
    rw [addRuleOne_rules]
    rw [lookup_append_of_none _ _ _ (hf x (List.mem_cons_of_mem r hx))]
    have hne : x.id ≠ r.id := by
      intro he
      exact hn.1 (he ▸ List.mem_map_of_mem (·.id) hx)
    simp only [List.lookup]
    rw [beq_eq_false_iff_ne.mpr hne]
  · rintro ⟨hf, hn⟩
    have hfg : ∀ x ∈ rest, g.rules.lookup x.id = none := by
      intro x hx
      rcases hl : g.rules.lookup x.id with _ | v
      · rfl
      · have hsome := lookup_append_left x.id g.rules [(r.id, r)] v hl
        rw [← addRuleOne_rules] at hsome
        rw [hf x hx] at hsome
        exact absurd hsome (by simp)
    refine ⟨?_, ?_⟩
    · intro x hx
      rcases List.mem_cons.mp hx with h' | h'
      · exact h' ▸ hfresh
      · exact hfg x h'
    · simp only [List.map_cons, List.nodup_cons]
      refine ⟨?_, hn⟩
      intro hmem
      rcases List.mem_map.mp hmem with ⟨x, hx, hid⟩
      have hsome : (addRuleOne g r).rules.lookup x.id = some r := by
        rw [addRuleOne_rules,
          lookup_append_of_none x.id g.rules [(r.id, r)]
            (by rw [hid]; exact hfresh)]
        simp only [List.lookup]
        rw [beq_iff_eq.mpr hid]
      rw [hf x hx] at hsome
      exact absurd hsome (by simp)

theorem addRulesLoop_dup :
    ∀ (rs : List Rule) (g : RulesGraph), ¬ dupFree g rs →
      ∃ pre r post, rs = pre ++ r :: post ∧ dupFree g pre ∧
        ((pre.foldl addRuleOne g).rules.lookup r.id).isSome = true ∧
        addRulesLoop g rs = (pre.foldl addRuleOne g, some (AddErr.dupId r.id))
  | [], g, h =>
    absurd ⟨fun r hr => absurd hr (List.not_mem_nil r), by simp⟩ h
  | r :: rest, g, h => by
    by_cases hfresh : g.rules.lookup r.id = none
    · have hrec : ¬ dupFree (addRuleOne g r) rest := by
        intro hd
        exact h ((dupFree_cons g r rest hfresh).mpr hd)
      rcases addRulesLoop_dup rest (addRuleOne g r) hrec with
        ⟨pre, r', post, hsplit, hdf, hlook, hloop⟩
      refine ⟨r :: pre, r', post, by simp [hsplit], ?_, ?_, ?_⟩
      · exact (dupFree_cons g r pre hfresh).mpr hdf
      · exact hlook
      · simp only [addRulesLoop, hfresh, Option.isSome_none,
          Bool.false_eq_true, if_false]
        exact hloop
    · have hsome : (g.rules.lookup r.id).isSome = true := by
        rcases hl : g.rules.lookup r.id with _ | v
        · exact absurd hl hfresh
        · rfl
      refine ⟨[], r, rest, rfl,
        ⟨fun x hx => absurd hx (List.not_mem_nil x), by simp⟩, hsome, ?_⟩
      simp [addRulesLoop, hsome]

/-- Claim C1 (amended): `add_rules(batch)` fails exactly when the batch
reuses a rule id or would make the type graph cyclic — with the
duplicate-identifier error when an id is reused (already registered, or
repeated within the batch) and the cyclic-graph error otherwise — but
the failure is not all-or-nothing: nothing is rolled back, so every
rule processed before the failure point stays registered.  In the
duplicate case the state is the fold over the duplicate-free prefix
before the offending rule; in the cyclic case the entire batch remains
registered.  A duplicate-free batch whose edges keep the graph acyclic
succeeds, and any raised error is one of the two claimed kinds. -/
theorem claim_C1_amended :
    (∀ (g : RulesGraph) (rs : List Rule), dupFree g rs →
        is_directed_acyclic_graph (rs.foldl addRuleOne g).graph = true →
        g.add_rules rs = (rs.foldl addRuleOne g, none)) ∧
    (∀ (g : RulesGraph) (rs : List Rule), dupFree g rs →
        is_directed_acyclic_graph (rs.foldl addRuleOne g).graph = false →
        g.add_rules rs = (rs.foldl addRuleOne g, some AddErr.cyclic) ∧
        (g.add_rules rs).1.rules = g.rules ++ rs.map (fun r => (r.id, r))) ∧
    (∀ (g : RulesGraph) (rs : List Rule), ¬ dupFree g rs →
        ∃ pre r post, rs = pre ++ r :: post ∧ dupFree g pre ∧
          ((pre.foldl addRuleOne g).rules.lookup r.id).isSome = true ∧
          g.add_rules rs =
            (pre.foldl addRuleOne g, some (AddErr.dupId r.id)) ∧
          (g.add_rules rs).1.rules =
            g.rules ++ pre.map (fun x => (x.id, x))) ∧
    (∀ (g : RulesGraph) (rs : List Rule) (e : AddErr),
        (g.add_rules rs).2 = some e →
        (∃ i, e = AddErr.dupId i) ∨ e = AddErr.cyclic) := by
  refine ⟨?_, ?_, ?_, ?_⟩
  · intro g rs hdf hdag
    have hl := addRulesLoop_fresh rs g hdf.1 hdf.2
    unfold RulesGraph.add_rules
    rw [hl]
    simp [hdag]
  · intro g rs hdf hcyc
    have hl := addRulesLoop_fresh rs g hdf.1 hdf.2
    refine ⟨?_, ?_⟩
    · unfold RulesGraph.add_rules
      rw [hl]
      simp [hcyc]
    · unfold RulesGraph.add_rules
      rw [hl]
      simp only [hcyc, Bool.false_eq_true, if_false]
      exact foldl_addRuleOne_rules rs g
  · intro g rs h
    rcases addRulesLoop_dup rs g h with
      ⟨pre, r, post, hsplit, hdf, hlook, hloop⟩
    have hres : g.add_rules rs =
        (pre.foldl addRuleOne g, some (AddErr.dupId r.id)) := by
      unfold RulesGraph.add_rules
      rw [hloop]
    refine ⟨pre, r, post, hsplit, hdf, hlook, hres, ?_⟩
    rw [hres]
    exact foldl_addRuleOne_rules pre g
  · intro g rs e he
    unfold RulesGraph.add_rules at he
    rcases hm : addRulesLoop g rs with ⟨g₁, e₁⟩
    rw [hm] at he
    cases e₁ with
    | some e₂ =>
      injection he with he2
      exact Or.inl (he2 ▸ addRulesLoop_err_is_dup rs g g₁ e₂ hm)
    | none =>
      simp only at he
      by_cases hd : is_directed_acyclic_graph g₁.graph = true
      · rw [if_pos hd] at he; simp at he
      · rw [if_neg hd] at he; simp at he; exact Or.inr he.symm

/-- Claim C1 amended, witnessed on concrete batches: the diamond batch
succeeds, the cyclic batch fails with the cyclic error while fully
mutated, and the batch `[crAB, crABdup]` reusing the id of its first
rule fails with the duplicate error while the duplicate-free prefix
stays registered. -/
theorem claim_C1_amended_witness :
    emptyRulesGraph.add_rules [r1, r2, r3] =
      ([r1, r2, r3].foldl addRuleOne emptyRulesGraph, none) ∧
    (emptyRulesGraph.add_rules [crAB, crBA] =
      ([crAB, crBA].foldl addRuleOne emptyRulesGraph, some AddErr.cyclic) ∧
     (emptyRulesGraph.add_rules [crAB, crBA]).1.rules =
      emptyRulesGraph.rules ++ [crAB, crBA].map (fun r => (r.id, r))) ∧
    (∃ pre r post, ([crAB, crABdup] : List Rule) = pre ++ r :: post ∧
      dupFree emptyRulesGraph pre ∧
      ((pre.foldl addRuleOne emptyRulesGraph).rules.lookup r.id).isSome =
        true ∧
      emptyRulesGraph.add_rules [crAB, crABdup] =
        (pre.foldl addRuleOne emptyRulesGraph, some (AddErr.dupId r.id)) ∧
      (emptyRulesGraph.add_rules [crAB, crABdup]).1.rules =
        emptyRulesGraph.rules ++ pre.map (fun x => (x.id, x))) :=
  ⟨claim_C1_amended.1 emptyRulesGraph [r1, r2, r3] (by decide) (by decide),
   claim_C1_amended.2.1 emptyRulesGraph [crAB, crBA] (by decide) (by decide),
   claim_C1_amended.2.2.1 emptyRulesGraph [crAB, crABdup] (by decide)⟩

/- ------------------------------------------------------------------ -/
/- Claim C8: register_union_member never fails.                       -/
/- ------------------------------------------------------------------ -/

theorem unionsAdd_lookup :
    ∀ (l : List (PyType × List PyType)) (u m : PyType),
      ∃ v, (unionsAdd l u m).lookup u = some v ∧ m ∈ v
  | [], u, m => by
    refine ⟨[m], ?_, by simp⟩
    simp [unionsAdd, List.lookup]
  | (k, v) :: rest, u, m => by
    by_cases hk : k = u
    · subst hk
      refine ⟨if m ∈ v then v else v ++ [m], ?_, ?_⟩
      · simp [unionsAdd, List.lookup]
      · by_cases hm : m ∈ v
        · simp [hm]
        · simp [hm]
    · obtain ⟨v', hv', hm'⟩ := unionsAdd_lookup rest u m
      refine ⟨v', ?_, hm'⟩
      simp only [unionsAdd, if_neg hk, List.lookup]
      rw [beq_eq_false_iff_ne.mpr (Ne.symm hk)]
      exact hv'

/-- Claim C8: `register_union_member(U, M)` performs no acyclicity check
and always returns normally; afterwards `M` is among
`get_union_members(U)`, the union edge `M → U` is in the graph, and the
rules are untouched — even in the concrete graph `gCyc8`, where the added
edge closes a cycle (`is_directed_acyclic_graph` is false), the
membership is still recorded, unlike `add_rules`, which rejects cycles. -/
theorem claim_C8_register_union_member_total (g : RulesGraph)
    (u m : PyType) :
    m ∈ (g.register_union_member u m).get_union_members u ∧
    (m, u, EdgeData.unionE) ∈ (g.register_union_member u m).graph.edges ∧
    (g.register_union_member u m).rules = g.rules ∧
    is_directed_acyclic_graph gCyc8.graph = false ∧
    tyM8 ∈ gCyc8.get_union_members tyU8 := by
  refine ⟨?_, ?_, rfl, by decide, by decide⟩
  · unfold RulesGraph.get_union_members RulesGraph.register_union_member
    obtain ⟨v, hv, hm⟩ := unionsAdd_lookup g.unions u m
    simp only [hv, Option.getD_some]
    exact hm
  · show (m, u, EdgeData.unionE) ∈ (Graph.add_edge _ m u .unionE).edges
    simp [Graph.add_edge]

/- ------------------------------------------------------------------ -/
/- Claim C2: facts precedence in RuleEngine.get.                      -/
/- ------------------------------------------------------------------ -/

/-- Claim C2 counterexample: the engine `engC2` holds the fact
`str ↦ 10` and no rules; calling `get(str, params)` with the competing
param `str ↦ 20` does not return the supplied value `20` — the fast path
is skipped, `find_path` finds no rule producing `str`, and the call
raises `NoMatchingRulesError`, refuting "the call uses and returns the
supplied value w". -/
theorem claim_C2_counterexample :
    engC2.get 5 tyStr [(tyStr, 20)] = GetRes.noMatchErr := by decide

/-- Claim C2 (amended): after `assert_facts` stores `v` for `F`,
`get(F, empty Params)` returns `v` directly, executing no rule; and
call-site `Params` take precedence over facts for the *rule input*
types they cover — the input bundle `facts.filter(inputs) |
params.filter(inputs)` handed to every executed rule takes the param
value for any shared type.  When `params` contains a value of the
requested type `F` itself, however, `get` does not return it: it
resolves and executes a plan for `F` (raising `NoMatchingRulesError`
when no rule produces `F`, as in the counterexample). -/
theorem claim_C2_amended_facts_precedence :
    (∀ (e e' : RuleEngine) (F : PyType) (v : Nat) (fuel : Nat),
        e.assert_facts [(F, v)] = some e' →
        e'.get fuel F [] = GetRes.ok v []) ∧
    (∀ (facts params : Params) (r : Rule) (t : PyType) (w : Nat),
        t ∈ r.input_types → pLookup params t = some w →
        pLookup (ruleInputs facts params r) t = some w) := by
  constructor
  · intro e e' F v fuel h
    unfold RuleEngine.assert_facts at h
    by_cases hov :
        ((pTypes e.facts).any (fun t => (pTypes [(F, v)]).contains t)) = true
    · rw [if_pos hov] at h
      simp at h
    · rw [if_neg hov] at h
      injection h with h'
      have hf : pLookup e'.facts F = some v := by
        rw [← h']
        exact pUnion_lookup_right e.facts [(F, v)] F v (by simp [pLookup, List.lookup])
      unfold RuleEngine.get
      rw [hf]
      simp
  · intro facts params r t w ht hw
    unfold ruleInputs
    refine pUnion_lookup_right _ _ t w ?_
    rw [show pLookup (pFilter params r.input_types) t = pLookup params t from
      pFilter_lookup r.input_types t ht params]
    exact hw

/-- Claim C2 amended, witnessed: `engBase` after asserting `int ↦ 7`
returns the fact for `get(int, [])` with no rule executed, and a param
value `int ↦ 2` overrides the fact value `int ↦ 1` in the input bundle
of a rule consuming `int`. -/
theorem claim_C2_amended_facts_precedence_witness :
    engW.get 3 tyInt [] = GetRes.ok 7 [] ∧
    pLookup (ruleInputs [(tyInt, 1)] [(tyInt, 2)] rIn) tyInt = some 2 :=
  ⟨claim_C2_amended_facts_precedence.1 engBase engW tyInt 7 3 rfl,
   claim_C2_amended_facts_precedence.2 [(tyInt, 1)] [(tyInt, 2)] rIn tyInt 2
     (by decide) rfl⟩

/- ------------------------------------------------------------------ -/
/- Basic structure lemmas about graph construction.                   -/
/- ------------------------------------------------------------------ -/

theorem add_node_edges (G : Graph) (v : PyType) :
    (G.add_node v).edges = G.edges := by
  unfold Graph.add_node
  split <;> rfl

theorem add_edge_edges (G : Graph) (u v : PyType) (d : EdgeData) :
    (G.add_edge u v d).edges = G.edges ++ [(u, v, d)] := by
  unfold Graph.add_edge
  simp [add_node_edges]

theorem foldl_add_node_edges :
    ∀ (ts : List PyType) (G : Graph),
      (ts.foldl Graph.add_node G).edges = G.edges
  | [], _ => rfl
  | t :: ts, G => by
    simp only [List.foldl_cons]
    rw [foldl_add_node_edges ts (G.add_node t), add_node_edges]

theorem foldl_add_edge_edges (out : PyType) (r : Rule) :
    ∀ (ts : List PyType) (G : Graph),
      (ts.foldl (fun acc t => acc.add_edge t out (.ruleE r)) G).edges =
        G.edges ++ ts.map (fun t => (t, out, EdgeData.ruleE r))
  | [], _ => by simp
  | t :: ts, G => by
    simp only [List.foldl_cons, List.map_cons]
    rw [foldl_add_edge_edges out r ts (G.add_edge t out (.ruleE r)),
      add_edge_edges]
    simp

theorem addRuleOne_edges (g : RulesGraph) (r : Rule) :
    (addRuleOne g r).graph.edges =
      g.graph.edges ++
        (if r.input_types.isEmpty then [NoInputsTy] else r.input_types).map
          (fun t => (t, r.output_type, EdgeData.ruleE r)) := by
  unfold addRuleOne
  rw [foldl_add_edge_edges, add_node_edges, foldl_add_node_edges]

theorem add_rules_fst (g : RulesGraph) (rs : List Rule) :
    (g.add_rules rs).1 = (addRulesLoop g rs).1 := by
  unfold RulesGraph.add_rules
  rcases addRulesLoop g rs with ⟨g', e⟩
  cases e with
  | none =>
    simp only
    split <;> rfl
  | some e' => rfl

theorem addRulesLoop_unions :
    ∀ (rs : List Rule) (g : RulesGraph),
      (addRulesLoop g rs).1.unions = g.unions
  | [], _ => rfl
  | r :: rs, g => by
    simp only [addRulesLoop]
    split
    · rfl
    · exact addRulesLoop_unions rs (addRuleOne g r)

theorem ruleEdgesOnly_addRuleOne (g : RulesGraph) (r : Rule)
    (h : RuleEdgesOnly g.graph) : RuleEdgesOnly (addRuleOne g r).graph := by
  intro e he
  rw [addRuleOne_edges] at he
  rcases List.mem_append.mp he with hold | hnew
  · exact h e hold
  · rcases List.mem_map.mp hnew with ⟨t, _, het⟩
    exact ⟨r, by rw [← het], by rw [← het]⟩

theorem ruleEdgesOnly_loop :
    ∀ (rs : List Rule) (g : RulesGraph), RuleEdgesOnly g.graph →
      RuleEdgesOnly (addRulesLoop g rs).1.graph
  | [], _, h => h
  | r :: rs, g, h => by
    simp only [addRulesLoop]
    split
    · exact h
    · exact ruleEdgesOnly_loop rs (addRuleOne g r) (ruleEdgesOnly_addRuleOne g r h)

/- ------------------------------------------------------------------ -/
/- Membership lemmas for the rule-set operations.                     -/
/- ------------------------------------------------------------------ -/

theorem mem_insertRuleD_elim (acc : List Rule) (r a : Rule)
    (h : a ∈ insertRuleD acc r) : a ∈ acc ∨ a = r := by
  unfold insertRuleD at h
  split at h
  · exact Or.inl h
  · rcases List.mem_append.mp h with h' | h'
    · exact Or.inl h'
    · exact Or.inr (List.mem_singleton.mp h')

theorem mem_insertRuleD_left (acc : List Rule) (r a : Rule)
    (h : a ∈ acc) : a ∈ insertRuleD acc r := by
  unfold insertRuleD
  split
  · exact h
  · exact List.mem_append_left _ h

theorem mem_unionRules_elim :
    ∀ (s acc : List Rule) (a : Rule),
      a ∈ unionRules acc s → a ∈ acc ∨ a ∈ s
  | [], acc, a, h => Or.inl h
  | x :: s, acc, a, h => by
    rcases mem_unionRules_elim s (insertRuleD acc x) a h with h' | h'
    · rcases mem_insertRuleD_elim acc x a h' with h'' | h''
      · exact Or.inl h''
      · exact Or.inr (h'' ▸ List.mem_cons_self x s)
    · exact Or.inr (List.mem_cons_of_mem x h')

theorem mem_unionRules_left :
    ∀ (s acc : List Rule) (a : Rule), a ∈ acc → a ∈ unionRules acc s
  | [], _, _, h => h
  | x :: s, acc, a, h =>
    mem_unionRules_left s (insertRuleD acc x) a (mem_insertRuleD_left acc x a h)

theorem getRulesAux_mem_sound (recur : PyType → Option (List Rule)) :
    ∀ (es : List (PyType × PyType × EdgeData)) (acc res : List Rule),
      getRulesAux recur es acc = some res → ∀ a ∈ res,
        a ∈ acc ∨
        (∃ e ∈ es, e.2.2 = EdgeData.ruleE a) ∨
        (∃ e ∈ es, e.2.2 = EdgeData.unionE ∧
          ∃ s, recur e.1 = some s ∧ a ∈ s)
  | [], acc, res, h, a, ha => by
    simp only [getRulesAux] at h
    injection h with h'
    exact Or.inl (h' ▸ ha)
  | e :: es, acc, res, h, a, ha => by
    simp only [getRulesAux] at h
    rcases he : e.2.2 with r | _
    · rw [he] at h
      rcases getRulesAux_mem_sound recur es (insertRuleD acc r) res h a ha with
        h' | h' | h'
      · rcases mem_insertRuleD_elim acc r a h' with h'' | h''
        · exact Or.inl h''
        · exact Or.inr (Or.inl ⟨e, List.mem_cons_self e es, h'' ▸ he⟩)
      · rcases h' with ⟨e', he', hr'⟩
        exact Or.inr (Or.inl ⟨e', List.mem_cons_of_mem e he', hr'⟩)
      · rcases h' with ⟨e', he', hu', hs'⟩
        exact Or.inr (Or.inr ⟨e', List.mem_cons_of_mem e he', hu', hs'⟩)
    · rw [he] at h
      rcases hrec : recur e.1 with _ | s
      · rw [hrec] at h; exact absurd h (by simp)
      · rw [hrec] at h
        rcases getRulesAux_mem_sound recur es (unionRules acc s) res h a ha with
          h' | h' | h'
        · rcases mem_unionRules_elim s acc a h' with h'' | h''
          · exact Or.inl h''
          · exact Or.inr (Or.inr ⟨e, List.mem_cons_self e es, he, s, hrec, h''⟩)
        · rcases h' with ⟨e', he', hr'⟩
          exact Or.inr (Or.inl ⟨e', List.mem_cons_of_mem e he', hr'⟩)
        · rcases h' with ⟨e', he', hu', hs'⟩
          exact Or.inr (Or.inr ⟨e', List.mem_cons_of_mem e he', hu', hs'⟩)

/- ------------------------------------------------------------------ -/
/- Claim C10: copying a graph keeps rules, drops union memberships.   -/
/- ------------------------------------------------------------------ -/

theorem getRules_output_of_ruleEdgesOnly (g : RulesGraph)
    (h : RuleEdgesOnly g.graph) :
    ∀ (fuel : Nat) (T : PyType) (r : Rule) (s : List Rule),
      g.get_rules_for_output_type fuel T = some s → r ∈ s →
      r.output_type = T := by
  intro fuel T r s hs hr
  cases fuel with
  | zero => exact absurd hs (by simp [RulesGraph.get_rules_for_output_type])
  | succ fuel =>
    simp only [RulesGraph.get_rules_for_output_type] at hs
    by_cases hn : T ∈ g.graph.nodes
    · rw [if_pos hn] at hs
      rcases getRulesAux_mem_sound _ _ _ _ hs r hr with h' | h' | h'
      · exact absurd h' (List.not_mem_nil r)
      · rcases h' with ⟨e, he, hre⟩
        have hef : e ∈ g.graph.edges ∧ (e.2.1 == T) = true :=
          List.mem_filter.mp he
        rcases h e hef.1 with ⟨r', hr', hout⟩
        rw [hre] at hr'
        injection hr' with hrr
        rw [← hrr] at hout
        rw [← hout]
        exact beq_iff_eq.mp hef.2
      · rcases h' with ⟨e, he, hue, _⟩
        have hef : e ∈ g.graph.edges ∧ (e.2.1 == T) = true :=
          List.mem_filter.mp he
        rcases h e hef.1 with ⟨r', hr', _⟩
        rw [hue] at hr'
        exact absurd hr' (by simp)
    · rw [if_neg hn] at hs
      injection hs with hs'
      rw [← hs'] at hr
      exact absurd hr (List.not_mem_nil r)

/-- Claim C10: `RulesGraph(other)` copies only the rules of `other`:
the copy's `get_union_members` is empty for every type, every rule
returned by the copy's `get_rules_for_output_type(T)` has output type
exactly `T` (the copy has no union edges at all), and hence a rule
producing a member `M ≠ U` of a union `U` of the original is never
returned for `U` by the copy. -/
theorem claim_C10_copy_drops_unions (g : RulesGraph) (U : PyType) :
    (copyRulesGraph g).1.get_union_members U = [] ∧
    (∀ (fuel : Nat) (T : PyType) (r : Rule) (s : List Rule),
      (copyRulesGraph g).1.get_rules_for_output_type fuel T = some s →
      r ∈ s → r.output_type = T) ∧
    (∀ (M : PyType) (r : Rule) (fuel : Nat) (s : List Rule),
      M ∈ g.get_union_members U → M ≠ U → r.output_type = M →
      (copyRulesGraph g).1.get_rules_for_output_type fuel U = some s →
      r ∉ s) := by
  have hu : (copyRulesGraph g).1.unions = [] := by
    show ((emptyRulesGraph.add_rules (ruleValues g)).1).unions = []
    rw [add_rules_fst, addRulesLoop_unions]
    rfl
  have hreo : RuleEdgesOnly (copyRulesGraph g).1.graph := by
    show RuleEdgesOnly ((emptyRulesGraph.add_rules (ruleValues g)).1).graph
    rw [add_rules_fst]
    exact ruleEdgesOnly_loop (ruleValues g) emptyRulesGraph
      (fun e he => absurd he (List.not_mem_nil e))
  refine ⟨?_, ?_, ?_⟩
  · unfold RulesGraph.get_union_members
    rw [hu]
    rfl
  · exact getRules_output_of_ruleEdgesOnly _ hreo
  · intro M r fuel s _ hMU hrM hs hmem
    exact hMU (hrM ▸ getRules_output_of_ruleEdgesOnly _ hreo fuel U r s hs hmem)

/-- Claim C10, witnessed on the union fixture `gU` (one rule producing
`SpecificA`, registered as a member of `A`): the copy reports no union
members for `A` and does not return the rule for output type `A`. -/
theorem claim_C10_copy_drops_unions_witness :
    (copyRulesGraph gU).1.get_union_members tyA = [] ∧
    rSpecA ∉ ([] : List Rule) :=
  ⟨(claim_C10_copy_drops_unions gU tyA).1,
   (claim_C10_copy_drops_unions gU tyA).2.2 tySpecA rSpecA 5 []
     (by decide) (by decide) (by decide) (by decide)⟩

/- ------------------------------------------------------------------ -/
/- Claims C3 and C9: the structure of find_path results.              -/
/- ------------------------------------------------------------------ -/

/-- Claim C3: `find_path(sig)` is determined by the number of candidate
rules whose missing inputs can all be recursively resolved (`results`,
one complete plan per such candidate): zero complete plans raise
`NoMatchingRulesError`, exactly one is returned, and two or more raise
`MultipleMatchingRulesError` carrying exactly all the competing complete
plans. -/
theorem claim_C3_outcome_by_candidate_count (g : RulesGraph) (fuel : Nat)
    (sig : Signature) (cands : List Rule) (results : List (List Rule))
    (hc : g.get_rules_for_output_type (fuel+1) sig.output_type = some cands)
    (hr : collectPlans (g.find_path fuel) sig.inputs cands = some results) :
    (results = [] → g.find_path (fuel+1) sig = FPRes.noMatch) ∧
    (∀ p, results = [p] → g.find_path (fuel+1) sig = FPRes.ok p) ∧
    (2 ≤ results.length → g.find_path (fuel+1) sig = FPRes.multiple results) := by
  refine ⟨?_, ?_, ?_⟩
  · intro h
    subst h
    simp only [RulesGraph.find_path, hc, hr]
    rfl
  · intro p h
    subst h
    simp only [RulesGraph.find_path, hc, hr]
    rfl
  · intro h2
    simp only [RulesGraph.find_path, hc, hr]
    rw [if_pos (show results.length > 1 from h2)]

/-- Claim C3, witnessed on the diamond graph: with two candidates
(`r1`, `r2`) both admitting complete plans, `find_path({str}, int)`
raises the ambiguity error carrying both plans. -/
theorem claim_C3_outcome_by_candidate_count_witness :
    gD.find_path 5 ⟨[tyStr], tyInt⟩ = FPRes.multiple [[r1], [r3, r2]] :=
  (claim_C3_outcome_by_candidate_count gD 4 ⟨[tyStr], tyInt⟩ [r1, r2]
    [[r1], [r3, r2]] (by decide) (by decide)).2.2 (by decide)

theorem collectPlans_mem :
    ∀ (cands : List Rule) (fp : Signature → FPRes) (inputs : List PyType)
      (results : List (List Rule)),
      collectPlans fp inputs cands = some results → ∀ p ∈ results,
        ∃ pre r, r ∈ cands ∧
          buildPre fp inputs (listDiff r.input_types inputs) [] =
            PreRes.ok pre ∧
          p = pre ++ [r]
  | [], _, _, results, h, p, hp => by
    simp only [collectPlans] at h
    injection h with h'
    rw [← h'] at hp
    exact absurd hp (List.not_mem_nil p)
  | r :: rest, fp, inputs, results, h, p, hp => by
    simp only [collectPlans] at h
    rcases hb : buildPre fp inputs (listDiff r.input_types inputs) [] with
      pre | _ | _
    · rw [hb] at h
      rcases hrest : collectPlans fp inputs rest with _ | results'
      · rw [hrest] at h; exact absurd h (by simp)
      · rw [hrest] at h
        injection h with h'
        rw [← h'] at hp
        rcases List.mem_cons.mp hp with hph | hpt
        · exact ⟨pre, r, List.mem_cons_self r rest, hb, hph⟩
        · rcases collectPlans_mem rest fp inputs results' hrest p hpt with
            ⟨pre', r', hr', hb', hp'⟩
          exact ⟨pre', r', List.mem_cons_of_mem r hr', hb', hp'⟩
    · rw [hb] at h
      rcases collectPlans_mem rest fp inputs results h p hp with
        ⟨pre', r', hr', hb', hp'⟩
      exact ⟨pre', r', List.mem_cons_of_mem r hr', hb', hp'⟩
    · rw [hb] at h
      exact absurd h (by simp)

/-- Every successfully returned plan decomposes as the resolved missing
inputs of one candidate, followed by that candidate. -/
theorem find_path_ok_elim (g : RulesGraph) :
    ∀ (fuel : Nat) (sig : Signature) (plan : List Rule),
      g.find_path fuel sig = FPRes.ok plan →
      ∃ fuel' cands pre r, fuel = fuel' + 1 ∧
        g.get_rules_for_output_type fuel sig.output_type = some cands ∧
        r ∈ cands ∧
        buildPre (g.find_path fuel') sig.inputs
          (listDiff r.input_types sig.inputs) [] = PreRes.ok pre ∧
        plan = pre ++ [r] := by
  intro fuel sig plan h
  cases fuel with
  | zero => exact absurd h (by simp [RulesGraph.find_path])
  | succ fuel =>
    simp only [RulesGraph.find_path] at h
    rcases hc : g.get_rules_for_output_type (fuel+1) sig.output_type with
      _ | cands
    · rw [hc] at h; exact absurd h (by simp)
    · rw [hc] at h
      simp only at h
      rcases hr : collectPlans (g.find_path fuel) sig.inputs cands with
        _ | results
      · rw [hr] at h; exact absurd h (by simp)
      · rw [hr] at h
        simp only at h
        by_cases hlen : results.length > 1
        · rw [if_pos hlen] at h; exact absurd h (by simp)
        · rw [if_neg hlen] at h
          rcases results with _ | ⟨p, rest⟩
          · exact absurd h (by simp)
          · simp only at h
            injection h with h'
            rcases collectPlans_mem cands (g.find_path fuel) sig.inputs
              (p :: rest) hr p (List.mem_cons_self p rest) with
              ⟨pre, r, hrc, hb, hp⟩
            exact ⟨fuel, cands, pre, r, rfl, rfl, hrc, hb, h' ▸ hp⟩

theorem find_path_ok_ne_nil (g : RulesGraph) (fuel : Nat) (sig : Signature)
    (plan : List Rule) (h : g.find_path fuel sig = FPRes.ok plan) :
    plan ≠ [] := by
  rcases find_path_ok_elim g fuel sig plan h with
    ⟨_, _, pre, r, _, _, _, _, hp⟩
  rw [hp]
  simp

/-- Claim C9: `find_path` either raises a `RuleResolveError` or returns
a non-empty plan (every plan ends with its candidate rule), so the
`assert len(rules) > 0` in `RuleEngine.get` after a successful
`find_path` is unreachable: `get` never reports an empty plan. -/
theorem claim_C9_plans_nonempty :
    (∀ (g : RulesGraph) (fuel : Nat) (sig : Signature) (plan : List Rule),
        g.find_path fuel sig = FPRes.ok plan → plan ≠ []) ∧
    (∀ (e : RuleEngine) (fuel : Nat) (T : PyType) (params : Params),
        e.get fuel T params ≠ GetRes.emptyPlanAssert) := by
  constructor
  · exact fun g fuel sig plan h => find_path_ok_ne_nil g fuel sig plan h
  · intro e fuel T params
    unfold RuleEngine.get
    by_cases hfast :
        (params.isEmpty && (pLookup e.facts T).isSome) = true
    · rw [if_pos hfast]
      simp
    · rw [if_neg hfast]
      rcases hfp : e.graph.find_path fuel
          ⟨tyUnion (pTypes params) (pTypes e.facts), T⟩ with plan | _ | ps | _
      · simp only
        have hne : plan ≠ [] := find_path_ok_ne_nil _ _ _ _ hfp
        rw [if_neg (by simpa [List.isEmpty_iff] using hne)]
        simp
      · simp
      · simp
      · simp

/-- Claim C9, witnessed: the unique plan for `(bool) → int` in the
diamond graph is non-empty, and a concrete `get` call does not trip the
assertion. -/
theorem claim_C9_plans_nonempty_witness :
    ([r2] ≠ ([] : List Rule)) ∧
    engD.get 5 tyInt [(tyBool, 3)] ≠ GetRes.emptyPlanAssert :=
  ⟨claim_C9_plans_nonempty.1 gD 5 ⟨[tyBool], tyInt⟩ [r2] (by decide),
   claim_C9_plans_nonempty.2 engD 5 tyInt [(tyBool, 3)]⟩

/- ------------------------------------------------------------------ -/
/- Completeness of the rule-collection fold (needs id-injectivity).   -/
/- ------------------------------------------------------------------ -/

theorem mem_edgeRules_intro (G : Graph) (e : PyType × PyType × EdgeData)
    (r : Rule) (he : e ∈ G.edges) (hr : e.2.2 = EdgeData.ruleE r) :
    r ∈ edgeRules G := by
  unfold edgeRules
  refine List.mem_filterMap.mpr ⟨e, he, ?_⟩
  rw [hr]

theorem mem_edgeRules_elim (G : Graph) (r : Rule)
    (h : r ∈ edgeRules G) :
    ∃ e ∈ G.edges, e.2.2 = EdgeData.ruleE r := by
  unfold edgeRules at h
  rcases List.mem_filterMap.mp h with ⟨e, he, hf⟩
  refine ⟨e, he, ?_⟩
  rcases hd : e.2.2 with r' | _
  · rw [hd] at hf
    injection hf with hf'
    rw [hf']
  · rw [hd] at hf
    exact absurd hf (by simp)

theorem insertRuleD_self (acc : List Rule) (r : Rule)
    (h : ∀ x ∈ acc, x.id = r.id → x = r) : r ∈ insertRuleD acc r := by
  unfold insertRuleD
  split
  · rename_i hany
    rcases List.any_eq_true.mp hany with ⟨x, hx, hid⟩
    have := h x hx (beq_iff_eq.mp hid)
    rw [← this]
    exact hx
  · exact List.mem_append_right _ (List.mem_singleton.mpr rfl)

theorem mem_unionRules_self (P : Rule → Prop)
    (hinj : ∀ x y, P x → P y → x.id = y.id → x = y) :
    ∀ (s acc : List Rule),
      (∀ a ∈ acc, P a) → (∀ a ∈ s, P a) →
      ∀ a ∈ s, a ∈ unionRules acc s
  | x :: s, acc, hacc, hs, a, ha => by
    rcases List.mem_cons.mp ha with h' | h'
    · subst h'
      refine mem_unionRules_left s (insertRuleD acc a) a ?_
      refine insertRuleD_self acc a ?_
      intro x' hx' hid
      exact hinj x' a (hacc x' hx') (hs a (List.mem_cons_self a s)) hid
    · refine mem_unionRules_self P hinj s (insertRuleD acc x) ?_
        (fun b hb => hs b (List.mem_cons_of_mem x hb)) a h'
      intro b hb
      rcases mem_insertRuleD_elim acc x b hb with h'' | h''
      · exact hacc b h''
      · exact h'' ▸ hs x (List.mem_cons_self x s)

theorem getRules_sub_edgeRules (g : RulesGraph) :
    ∀ (fuel : Nat) (T : PyType) (s : List Rule),
      g.get_rules_for_output_type fuel T = some s →
      ∀ a ∈ s, a ∈ edgeRules g.graph
  | 0, T, s, h => by simp [RulesGraph.get_rules_for_output_type] at h
  | fuel+1, T, s, h => by
    intro a ha
    simp only [RulesGraph.get_rules_for_output_type] at h
    by_cases hn : T ∈ g.graph.nodes
    · rw [if_pos hn] at h
      rcases getRulesAux_mem_sound _ _ _ _ h a ha with h' | h' | h'
      · exact absurd h' (List.not_mem_nil a)
      · rcases h' with ⟨e, he, hre⟩
        exact mem_edgeRules_intro g.graph e a (List.mem_filter.mp he).1 hre
      · rcases h' with ⟨e, _, _, s', hrec, hs'⟩
        exact getRules_sub_edgeRules g fuel e.1 s' hrec a hs'
    · rw [if_neg hn] at h
      injection h with h'
      rw [← h'] at ha
      exact absurd ha (List.not_mem_nil a)

theorem getRulesAux_mem_complete (G : Graph)
    (recur : PyType → Option (List Rule))
    (hinj : ∀ x ∈ edgeRules G, ∀ y ∈ edgeRules G, x.id = y.id → x = y)
    (hrec : ∀ M s, recur M = some s → ∀ a ∈ s, a ∈ edgeRules G) :
    ∀ (es : List (PyType × PyType × EdgeData)) (acc res : List Rule),
      (∀ e ∈ es, e ∈ G.edges) →
      (∀ a ∈ acc, a ∈ edgeRules G) →
      getRulesAux recur es acc = some res →
      (∀ a ∈ acc, a ∈ res) ∧
      (∀ e ∈ es, ∀ r, e.2.2 = EdgeData.ruleE r → r ∈ res) ∧
      (∀ e ∈ es, ∀ s, e.2.2 = EdgeData.unionE → recur e.1 = some s →
        ∀ a ∈ s, a ∈ res)
  | [], acc, res, _, _, h => by
    simp only [getRulesAux] at h
    injection h with h'
    subst h'
    exact ⟨fun a ha => ha,
      fun e he => absurd he (List.not_mem_nil e),
      fun e he => absurd he (List.not_mem_nil e)⟩
  | e :: es, acc, res, hes, hacc, h => by
    simp only [getRulesAux] at h
    rcases he : e.2.2 with r | _
    · rw [he] at h
      have hrER : r ∈ edgeRules G :=
        mem_edgeRules_intro G e r (hes e (List.mem_cons_self e es)) he
      have hacc' : ∀ a ∈ insertRuleD acc r, a ∈ edgeRules G := by
        intro a ha
        rcases mem_insertRuleD_elim acc r a ha with h' | h'
        · exact hacc a h'
        · exact h' ▸ hrER
      rcases getRulesAux_mem_complete G recur hinj hrec es (insertRuleD acc r)
          res (fun e' he' => hes e' (List.mem_cons_of_mem e he')) hacc' h with
        ⟨ih1, ih2, ih3⟩
      refine ⟨fun a ha => ih1 a (mem_insertRuleD_left acc r a ha), ?_, ?_⟩
      · intro e' he' r' hr'
        rcases List.mem_cons.mp he' with h' | h'
        · subst h'
          rw [he] at hr'
          injection hr' with hr''
          subst hr''
          refine ih1 r (insertRuleD_self acc r ?_)
          intro x hx hid
          exact hinj x (hacc x hx) r hrER hid
        · exact ih2 e' h' r' hr'
      · intro e' he' s hu' hrec' a ha
        rcases List.mem_cons.mp he' with h' | h'
        · subst h'
          rw [he] at hu'
          exact absurd hu' (by simp)
        · exact ih3 e' h' s hu' hrec' a ha
    · rw [he] at h
      rcases hr : recur e.1 with _ | s
      · rw [hr] at h
        exact absurd h (by simp)
      · rw [hr] at h
        have hsER : ∀ a ∈ s, a ∈ edgeRules G := hrec e.1 s hr
        have hacc' : ∀ a ∈ unionRules acc s, a ∈ edgeRules G := by
          intro a ha
          rcases mem_unionRules_elim s acc a ha with h' | h'
          · exact hacc a h'
          · exact hsER a h'
        rcases getRulesAux_mem_complete G recur hinj hrec es (unionRules acc s)
            res (fun e' he' => hes e' (List.mem_cons_of_mem e he')) hacc' h with
          ⟨ih1, ih2, ih3⟩
        refine ⟨fun a ha => ih1 a (mem_unionRules_left s acc a ha), ?_, ?_⟩
        · intro e' he' r' hr'
          rcases List.mem_cons.mp he' with h' | h'
          · subst h'
            rw [he] at hr'
            exact absurd hr' (by simp)
          · exact ih2 e' h' r' hr'
        · intro e' he' s' hu' hrec' a ha
          rcases List.mem_cons.mp he' with h' | h'
          · subst h'
            rw [hr] at hrec'
            injection hrec' with hss
            subst hss
            refine ih1 a ?_
            exact mem_unionRules_self (· ∈ edgeRules G)
              (fun x y hx hy => hinj x hx y hy) s acc hacc hsER a ha
          · exact ih3 e' h' s' hu' hrec' a ha

/- ------------------------------------------------------------------ -/
/- Claim C5: characterization of get_rules_for_output_type.           -/
/- ------------------------------------------------------------------ -/

theorem getRules_mem_sound (g : RulesGraph) (fuel : Nat) (T : PyType)
    (r : Rule) (s : List Rule)
    (hs : g.get_rules_for_output_type (fuel+1) T = some s) (hr : r ∈ s) :
    (∃ u, (u, T, EdgeData.ruleE r) ∈ g.graph.edges) ∨
    (∃ M sM, (M, T, EdgeData.unionE) ∈ g.graph.edges ∧
      g.get_rules_for_output_type fuel M = some sM ∧ r ∈ sM) := by
  simp only [RulesGraph.get_rules_for_output_type] at hs
  by_cases hn : T ∈ g.graph.nodes
  · rw [if_pos hn] at hs
    rcases getRulesAux_mem_sound _ _ _ _ hs r hr with h' | h' | h'
    · exact absurd h' (List.not_mem_nil r)
    · rcases h' with ⟨e, he, hre⟩
      have hef := List.mem_filter.mp he
      rcases e with ⟨u, v, d⟩
      have hv : v = T := beq_iff_eq.mp hef.2
      subst hv
      have hd : d = EdgeData.ruleE r := hre
      subst hd
      exact Or.inl ⟨u, hef.1⟩
    · rcases h' with ⟨e, he, hue, sM, hrec, hsm⟩
      have hef := List.mem_filter.mp he
      rcases e with ⟨M, v, d⟩
      have hv : v = T := beq_iff_eq.mp hef.2
      subst hv
      have hd : d = EdgeData.unionE := hue
      subst hd
      exact Or.inr ⟨M, sM, hef.1, hrec, hsm⟩
  · rw [if_neg hn] at hs
    injection hs with h'
    rw [← h'] at hr
    exact absurd hr (List.not_mem_nil r)

theorem getRules_mem_complete_rule (g : RulesGraph)
    (hinj : ∀ x ∈ edgeRules g.graph, ∀ y ∈ edgeRules g.graph,
      x.id = y.id → x = y)
    (hepts : ∀ e ∈ g.graph.edges, e.1 ∈ g.graph.nodes ∧ e.2.1 ∈ g.graph.nodes)
    (fuel : Nat) (T u : PyType) (r : Rule) (s : List Rule)
    (hs : g.get_rules_for_output_type (fuel+1) T = some s)
    (hedge : (u, T, EdgeData.ruleE r) ∈ g.graph.edges) : r ∈ s := by
  have hn : T ∈ g.graph.nodes := (hepts _ hedge).2
  simp only [RulesGraph.get_rules_for_output_type, if_pos hn] at hs
  rcases getRulesAux_mem_complete g.graph (g.get_rules_for_output_type fuel)
      hinj (fun M s' h => getRules_sub_edgeRules g fuel M s' h)
      (inEdges g.graph T) [] s
      (fun e he => (List.mem_filter.mp he).1)
      (fun a ha => absurd ha (List.not_mem_nil a)) hs with ⟨_, h2, _⟩
  refine h2 (u, T, EdgeData.ruleE r) ?_ r rfl
  exact List.mem_filter.mpr ⟨hedge, by simp⟩

theorem getRules_mem_complete_union (g : RulesGraph)
    (hinj : ∀ x ∈ edgeRules g.graph, ∀ y ∈ edgeRules g.graph,
      x.id = y.id → x = y)
    (hepts : ∀ e ∈ g.graph.edges, e.1 ∈ g.graph.nodes ∧ e.2.1 ∈ g.graph.nodes)
    (fuel : Nat) (T M : PyType) (r : Rule) (sM s : List Rule)
    (hs : g.get_rules_for_output_type (fuel+1) T = some s)
    (hedge : (M, T, EdgeData.unionE) ∈ g.graph.edges)
    (hM : g.get_rules_for_output_type fuel M = some sM) (hr : r ∈ sM) :
    r ∈ s := by
  have hn : T ∈ g.graph.nodes := (hepts _ hedge).2
  simp only [RulesGraph.get_rules_for_output_type, if_pos hn] at hs
  rcases getRulesAux_mem_complete g.graph (g.get_rules_for_output_type fuel)
      hinj (fun M' s' h => getRules_sub_edgeRules g fuel M' s' h)
      (inEdges g.graph T) [] s
      (fun e he => (List.mem_filter.mp he).1)
      (fun a ha => absurd ha (List.not_mem_nil a)) hs with ⟨_, _, h3⟩
  refine h3 (M, T, EdgeData.unionE) ?_ sM rfl hM r hr
  exact List.mem_filter.mpr ⟨hedge, by simp⟩

theorem getRules_no_inedges (g : RulesGraph) (fuel : Nat) (T : PyType)
    (h : ∀ e ∈ g.graph.edges, e.2.1 ≠ T) :
    g.get_rules_for_output_type (fuel+1) T = some [] := by
  simp only [RulesGraph.get_rules_for_output_type]
  by_cases hn : T ∈ g.graph.nodes
  · rw [if_pos hn]
    have hie : inEdges g.graph T = [] := by
      unfold inEdges
      refine List.filter_eq_nil_iff.mpr ?_
      intro e he
      simp only [Bool.not_eq_true]
      exact beq_eq_false_iff_ne.mpr (h e he)
    rw [hie]
    rfl
  · rw [if_neg hn]

theorem register_edges (g : RulesGraph) (u m : PyType) :
    (g.register_union_member u m).graph.edges =
      g.graph.edges ++ [(m, u, EdgeData.unionE)] := by
  show (((g.graph.add_node u).add_node m).add_edge m u .unionE).edges = _
  rw [add_edge_edges, add_node_edges, add_node_edges]

theorem edgeRules_register (g : RulesGraph) (u m : PyType) :
    edgeRules (g.register_union_member u m).graph = edgeRules g.graph := by
  unfold edgeRules
  rw [register_edges, List.filterMap_append]
  simp

theorem mem_add_node (G : Graph) (v x : PyType) (h : x ∈ G.nodes) :
    x ∈ (G.add_node v).nodes := by
  unfold Graph.add_node
  split
  · exact h
  · exact List.mem_append_left _ h

theorem mem_add_node_self (G : Graph) (v : PyType) :
    v ∈ (G.add_node v).nodes := by
  unfold Graph.add_node
  split
  · assumption
  · exact List.mem_append_right _ (List.mem_singleton.mpr rfl)

theorem add_edge_nodes (G : Graph) (u v : PyType) (d : EdgeData) :
    (G.add_edge u v d).nodes = ((G.add_node u).add_node v).nodes := rfl

theorem register_hepts (g : RulesGraph) (u m : PyType)
    (h : ∀ e ∈ g.graph.edges, e.1 ∈ g.graph.nodes ∧ e.2.1 ∈ g.graph.nodes) :
    ∀ e ∈ (g.register_union_member u m).graph.edges,
      e.1 ∈ (g.register_union_member u m).graph.nodes ∧
      e.2.1 ∈ (g.register_union_member u m).graph.nodes := by
  intro e he
  rw [register_edges] at he
  show e.1 ∈ ((((g.graph.add_node u).add_node m).add_node m).add_node u).nodes ∧
    e.2.1 ∈ ((((g.graph.add_node u).add_node m).add_node m).add_node u).nodes
  rcases List.mem_append.mp he with hold | hnew
  · rcases h e hold with ⟨h1, h2⟩
    exact ⟨mem_add_node _ _ _ (mem_add_node _ _ _ (mem_add_node _ _ _
        (mem_add_node _ _ _ h1))),
      mem_add_node _ _ _ (mem_add_node _ _ _ (mem_add_node _ _ _
        (mem_add_node _ _ _ h2)))⟩
  · have he' : e = (m, u, EdgeData.unionE) := List.mem_singleton.mp hnew
    subst he'
    exact ⟨mem_add_node _ _ _ (mem_add_node _ _ _ (mem_add_node_self _ m)),
      mem_add_node_self _ u⟩

/-- Claim C5: union transparency of `get_rules_for_output_type` on a
well-formed graph.  (1) membership in the result for `T` is exactly:
carried on a rule edge into `T`, or obtained recursively through a
registered union edge `M → T`; (2) every registered rule is returned for
its own output type; (3) a type with no incoming edges yields the empty
set; (4) after `register_union_member(U, M)`, every rule resolving for
`M` also resolves for `U`. -/
theorem claim_C5_union_transparency (g : RulesGraph) (hwf : WF g) :
    (∀ (fuel : Nat) (T : PyType) (r : Rule) (s : List Rule),
        g.get_rules_for_output_type (fuel+1) T = some s →
        (r ∈ s ↔
          (∃ u, (u, T, EdgeData.ruleE r) ∈ g.graph.edges) ∨
          (∃ M sM, (M, T, EdgeData.unionE) ∈ g.graph.edges ∧
            g.get_rules_for_output_type fuel M = some sM ∧ r ∈ sM))) ∧
    (∀ (p : String × Rule) (fuel : Nat) (s : List Rule),
        p ∈ g.rules →
        g.get_rules_for_output_type (fuel+1) p.2.output_type = some s →
        p.2 ∈ s) ∧
    (∀ (fuel : Nat) (T : PyType), (∀ e ∈ g.graph.edges, e.2.1 ≠ T) →
        g.get_rules_for_output_type (fuel+1) T = some []) ∧
    (∀ (u m : PyType) (fuel : Nat) (sM sU : List Rule) (r : Rule),
        (g.register_union_member u m).get_rules_for_output_type fuel m =
          some sM →
        r ∈ sM →
        (g.register_union_member u m).get_rules_for_output_type (fuel+1) u =
          some sU →
        r ∈ sU) := by
  rcases hwf with ⟨hnodup, hepts, hok, hinj, hrules⟩
  refine ⟨?_, ?_, ?_, ?_⟩
  · intro fuel T r s hs
    constructor
    · exact getRules_mem_sound g fuel T r s hs
    · intro h
      rcases h with ⟨u, hedge⟩ | ⟨M, sM, hedge, hM, hr⟩
      · exact getRules_mem_complete_rule g hinj hepts fuel T u r s hs hedge
      · exact getRules_mem_complete_union g hinj hepts fuel T M r sM s
          hs hedge hM hr
  · intro p fuel s hp hs
    rcases hrules p hp with ⟨_, hER⟩
    rcases mem_edgeRules_elim g.graph p.2 hER with ⟨e, he, hre⟩
    have hokE := hok e he
    unfold edgeRuleOKb at hokE
    rw [hre] at hokE
    have hout : e.2.1 = p.2.output_type :=
      beq_iff_eq.mp (Bool.and_elim_left hokE)
    rcases e with ⟨u, v, d⟩
    have hd : d = EdgeData.ruleE p.2 := hre
    subst hd
    have hv : v = p.2.output_type := hout
    subst hv
    exact getRules_mem_complete_rule g hinj hepts fuel _ u p.2 s hs he
  · exact fun fuel T h => getRules_no_inedges g fuel T h
  · intro u m fuel sM sU r hM hr hU
    have hinj' : ∀ x ∈ edgeRules (g.register_union_member u m).graph,
        ∀ y ∈ edgeRules (g.register_union_member u m).graph,
        x.id = y.id → x = y := by
      rw [edgeRules_register]
      exact hinj
    cases fuel with
    | zero =>
      exact absurd hM (by simp [RulesGraph.get_rules_for_output_type])
    | succ fuel =>
      refine getRules_mem_complete_union (g.register_union_member u m)
        hinj' (register_hepts g u m hepts) (fuel+1) u m r sM sU hU ?_ hM hr
      rw [register_edges]
      exact List.mem_append_right _ (List.mem_singleton.mpr rfl)

/-- Claim C5, witnessed: in the diamond graph the registered rule `r1`
is returned for its output type `int`, and in the union fixture the
producer of `SpecificA` is returned for the union type `A` after
registration. -/
theorem claim_C5_union_transparency_witness :
    r1 ∈ [r1, r2] ∧ rSpecA ∈ [rSpecA] :=
  ⟨(claim_C5_union_transparency gD (by decide)).2.1 ("r1", r1) 4 [r1, r2]
      (by decide) (by decide),
   (claim_C5_union_transparency (mkRulesGraph [rSpecA]).1 (by decide)).2.2.2
      tyA tySpecA 5 [rSpecA] [rSpecA] rSpecA (by decide) (by decide)
      (by decide)⟩

/- ------------------------------------------------------------------ -/
/- Claim C6: dependency order of returned plans.                      -/
/- ------------------------------------------------------------------ -/

theorem mem_of_getLast?_eq {α : Type} (l : List α) (a : α)
    (h : l.getLast? = some a) : a ∈ l := by
  rcases List.mem_getLast?_eq_getLast (show a ∈ l.getLast? by rw [h]; rfl) with
    ⟨hne, heq⟩
  rw [heq]
  exact List.getLast_mem hne

theorem depOrdered_nil (G : Graph) (inputs : List PyType) :
    DepOrdered G inputs [] := by
  intro i
  exact absurd i.2 (by simp)

theorem coveredBy_mono (G : Graph) (inputs : List PyType)
    (ctx ctx' : List Rule) (r : Rule) (h : CoveredBy G inputs ctx r)
    (hsub : ∀ x ∈ ctx, x ∈ ctx') : CoveredBy G inputs ctx' r := by
  intro t ht
  rcases h t ht with h' | ⟨x, hx, hu⟩
  · exact Or.inl h'
  · exact Or.inr ⟨x, hsub x hx, hu⟩

theorem depOrdered_append_one (G : Graph) (inputs : List PyType)
    (l : List Rule) (r : Rule) (hdo : DepOrdered G inputs l)
    (hcov : CoveredBy G inputs l r) : DepOrdered G inputs (l ++ [r]) := by
  intro i
  by_cases hi : i.1 < l.length
  · have hget : (l ++ [r]).get i = l.get ⟨i.1, hi⟩ := by
      rw [List.get_eq_getElem, List.get_eq_getElem,
        List.getElem_append_left hi]
    have htake : (l ++ [r]).take i.1 = l.take i.1 :=
      List.take_append_of_le_length (le_of_lt hi)
    rw [hget, htake]
    exact hdo ⟨i.1, hi⟩
  · have hlen : i.1 = l.length := by
      have h2 := i.2
      simp only [List.length_append, List.length_singleton] at h2
      omega
    have hget : (l ++ [r]).get i = r := by
      rw [List.get_eq_getElem]
      exact List.getElem_concat_length l r i.1 hlen _
    have htake : (l ++ [r]).take i.1 = l := by
      rw [hlen, List.take_append_of_le_length (le_refl _), List.take_length]
    rw [hget, htake]
    exact hcov

theorem getRules_UPath (g : RulesGraph)
    (hok : ∀ e ∈ g.graph.edges, edgeRuleOKb g.graph e = true) :
    ∀ (fuel : Nat) (T : PyType) (s : List Rule) (r : Rule),
      g.get_rules_for_output_type fuel T = some s → r ∈ s →
      UPath g.graph r.output_type T
  | 0, T, s, r, h, _ => by
    simp [RulesGraph.get_rules_for_output_type] at h
  | fuel+1, T, s, r, h, hr => by
    rcases getRules_mem_sound g fuel T r s h hr with ⟨u, hedge⟩ |
      ⟨M, sM, hedge, hM, hrm⟩
    · have hokE := hok _ hedge
      unfold edgeRuleOKb at hokE
      have hout : T = r.output_type :=
        beq_iff_eq.mp (Bool.and_elim_left hokE)
      rw [hout]
      exact UPath.refl r.output_type
    · exact UPath.step hedge (getRules_UPath g hok fuel M sM r hM hrm)

theorem edge_rule_inputs (G : Graph)
    (hok : ∀ e ∈ G.edges, edgeRuleOKb G e = true)
    (r : Rule) (hER : r ∈ edgeRules G) :
    ∀ t ∈ r.input_types, (t, r.output_type, EdgeData.ruleE r) ∈ G.edges := by
  rcases mem_edgeRules_elim G r hER with ⟨e, he, hre⟩
  have hokE := hok e he
  rcases e with ⟨u, v, d⟩
  have hd : d = EdgeData.ruleE r := hre
  subst hd
  unfold edgeRuleOKb at hokE
  have hall := Bool.and_elim_right hokE
  intro t ht
  exact List.mem_of_elem_eq_true (List.all_eq_true.mp hall t ht)

theorem unionRules_depOrdered (G : Graph) (inputs : List PyType)
    (hinj : ∀ x ∈ edgeRules G, ∀ y ∈ edgeRules G, x.id = y.id → x = y) :
    ∀ (s acc : List Rule),
      (∀ a ∈ acc, a ∈ edgeRules G) → (∀ a ∈ s, a ∈ edgeRules G) →
      DepOrdered G inputs acc →
      (∀ i : Fin s.length, CoveredBy G inputs (acc ++ s.take i.1) (s.get i)) →
      DepOrdered G inputs (unionRules acc s)
  | [], acc, _, _, hdo, _ => hdo
  | x :: s, acc, haccER, hsER, hdo, hcov => by
    show DepOrdered G inputs (unionRules (insertRuleD acc x) s)
    have hxER : x ∈ edgeRules G := hsER x (List.mem_cons_self x s)
    have hcov0 : CoveredBy G inputs acc x := by
      have h0 := hcov ⟨0, by simp⟩
      simpa using h0
    by_cases hskip : (acc.any (fun y => y.id == x.id)) = true
    · have hxmem : x ∈ acc := by
        rcases List.any_eq_true.mp hskip with ⟨y, hy, hid⟩
        have hyx := hinj y (haccER y hy) x hxER (beq_iff_eq.mp hid)
        rw [← hyx]
        exact hy
      have hins : insertRuleD acc x = acc := by
        unfold insertRuleD
        rw [if_pos hskip]
      rw [hins]
      refine unionRules_depOrdered G inputs hinj s acc haccER
        (fun a ha => hsER a (List.mem_cons_of_mem x ha)) hdo ?_
      intro i
      have hc := hcov ⟨i.1 + 1, Nat.succ_lt_succ i.2⟩
      refine coveredBy_mono G inputs (acc ++ x :: s.take i.1)
        (acc ++ s.take i.1) _ hc ?_
      intro y hy
      rcases List.mem_append.mp hy with hy' | hy'
      · exact List.mem_append_left _ hy'
      · rcases List.mem_cons.mp hy' with hy'' | hy''
        · exact List.mem_append_left _ (hy'' ▸ hxmem)
        · exact List.mem_append_right _ hy''
    · have hins : insertRuleD acc x = acc ++ [x] := by
        unfold insertRuleD
        rw [if_neg hskip]
      rw [hins]
      have haccER' : ∀ a ∈ acc ++ [x], a ∈ edgeRules G := by
        intro a ha
        rcases List.mem_append.mp ha with ha' | ha'
        · exact haccER a ha'
        · exact (List.mem_singleton.mp ha') ▸ hxER
      refine unionRules_depOrdered G inputs hinj s (acc ++ [x]) haccER'
        (fun a ha => hsER a (List.mem_cons_of_mem x ha))
        (depOrdered_append_one G inputs acc x hdo hcov0) ?_
      intro i
      have hc := hcov ⟨i.1 + 1, Nat.succ_lt_succ i.2⟩
      have hctx : acc ++ x :: s.take i.1 = (acc ++ [x]) ++ s.take i.1 := by
        simp
      rw [← hctx]
      exact hc

theorem buildPre_props (g : RulesGraph) (fuel : Nat) (inputs : List PyType)
    (hinj : ∀ x ∈ edgeRules g.graph, ∀ y ∈ edgeRules g.graph,
      x.id = y.id → x = y)
    (IH : ∀ (sig : Signature) (plan : List Rule),
      g.find_path fuel sig = FPRes.ok plan →
      DepOrdered g.graph sig.inputs plan ∧ plan ≠ [] ∧
      (∃ R, plan.getLast? = some R ∧
        UPath g.graph R.output_type sig.output_type) ∧
      (∀ a ∈ plan, a ∈ edgeRules g.graph)) :
    ∀ (ts : List PyType) (acc res : List Rule),
      (∀ a ∈ acc, a ∈ edgeRules g.graph) →
      DepOrdered g.graph inputs acc →
      buildPre (g.find_path fuel) inputs ts acc = PreRes.ok res →
      (∀ a ∈ res, a ∈ edgeRules g.graph) ∧
      DepOrdered g.graph inputs res ∧
      (∀ a ∈ acc, a ∈ res) ∧
      (∀ t ∈ ts, ∃ x ∈ res, UPath g.graph x.output_type t)
  | [], acc, res, haccER, hdo, h => by
    simp only [buildPre] at h
    injection h with h'
    subst h'
    exact ⟨haccER, hdo, fun a ha => ha,
      fun t ht => absurd ht (List.not_mem_nil t)⟩
  | t :: ts, acc, res, haccER, hdo, h => by
    simp only [buildPre] at h
    rcases hfp : g.find_path fuel ⟨inputs, t⟩ with sub | _ | _ | _
    · rw [hfp] at h
      rcases IH ⟨inputs, t⟩ sub hfp with ⟨hdosub, hne, ⟨R, hlast, hup⟩, hsubER⟩
      have haccER' : ∀ a ∈ unionRules acc sub, a ∈ edgeRules g.graph := by
        intro a ha
        rcases mem_unionRules_elim sub acc a ha with h' | h'
        · exact haccER a h'
        · exact hsubER a h'
      have hdo' : DepOrdered g.graph inputs (unionRules acc sub) := by
        refine unionRules_depOrdered g.graph inputs hinj sub acc haccER
          hsubER hdo ?_
        intro i
        refine coveredBy_mono g.graph inputs (sub.take i.1)
          (acc ++ sub.take i.1) _ (hdosub i) ?_
        intro x hx
        exact List.mem_append_right _ hx
      rcases buildPre_props g fuel inputs hinj IH ts (unionRules acc sub) res
          haccER' hdo' h with ⟨hER', hdo'', hsub', hcov'⟩
      refine ⟨hER', hdo'', ?_, ?_⟩
      · intro a ha
        exact hsub' a (mem_unionRules_left sub acc a ha)
      · intro t' ht'
        rcases List.mem_cons.mp ht' with ht'' | ht''
        · subst ht''
          have hRsub : R ∈ sub := mem_of_getLast?_eq sub R hlast
          have hRmem : R ∈ unionRules acc sub :=
            mem_unionRules_self (· ∈ edgeRules g.graph)
              (fun x y hx hy => hinj x hx y hy) sub acc haccER hsubER R hRsub
          exact ⟨R, hsub' R hRmem, hup⟩
        · exact hcov' t' ht''
    · rw [hfp] at h
      exact absurd h (by simp)
    · rw [hfp] at h
      exact absurd h (by simp)
    · rw [hfp] at h
      exact absurd h (by simp)

theorem find_path_ok_props (g : RulesGraph)
    (hinj : ∀ x ∈ edgeRules g.graph, ∀ y ∈ edgeRules g.graph,
      x.id = y.id → x = y)
    (hok : ∀ e ∈ g.graph.edges, edgeRuleOKb g.graph e = true) :
    ∀ (fuel : Nat) (sig : Signature) (plan : List Rule),
      g.find_path fuel sig = FPRes.ok plan →
      DepOrdered g.graph sig.inputs plan ∧ plan ≠ [] ∧
      (∃ R, plan.getLast? = some R ∧
        UPath g.graph R.output_type sig.output_type) ∧
      (∀ a ∈ plan, a ∈ edgeRules g.graph)
  | 0, sig, plan, h => absurd h (by simp [RulesGraph.find_path])
  | fuel+1, sig, plan, h => by
    rcases find_path_ok_elim g (fuel+1) sig plan h with
      ⟨fuel', cands, pre, r, hfe, hc, hrc, hb, hp⟩
    have hfuel : fuel' = fuel := by omega
    rw [hfuel] at hb
    have hrER : r ∈ edgeRules g.graph := getRules_sub_edgeRules g _ _ cands hc r hrc
    rcases buildPre_props g fuel sig.inputs hinj
        (find_path_ok_props g hinj hok fuel)
        (listDiff r.input_types sig.inputs) [] pre
        (fun a ha => absurd ha (List.not_mem_nil a))
        (depOrdered_nil g.graph sig.inputs) hb with
      ⟨hpreER, hpredo, _, hprecov⟩
    subst hp
    refine ⟨?_, by simp, ?_, ?_⟩
    · refine depOrdered_append_one g.graph sig.inputs pre r hpredo ?_
      intro t ht
      by_cases hin : t ∈ sig.inputs
      · exact Or.inl hin
      · have htd : t ∈ listDiff r.input_types sig.inputs := by
          unfold listDiff
          refine List.mem_filter.mpr ⟨ht, ?_⟩
          simp only [Bool.not_eq_true', Bool.not_eq_true]
          exact Bool.not_eq_true _ ▸ (by
            intro hcontra
            exact hin (List.mem_of_elem_eq_true hcontra))
        rcases hprecov t htd with ⟨x, hx, hu⟩
        exact Or.inr ⟨x, hx, hu⟩
    · refine ⟨r, List.getLast?_concat pre, ?_⟩
      exact getRules_UPath g hok (fuel+1) sig.output_type cands r hc hrc
    · intro a ha
      rcases List.mem_append.mp ha with ha' | ha'
      · exact hpreER a ha'
      · exact (List.mem_singleton.mp ha') ▸ hrER

/-- Claim C6 counterexample: in `gC6` (rules `ru1 : {A} → M`,
`ru2 : {U} → B`, with `M` registered as a union member of `U`) the
unique complete plan for `({A}, B)` is `[ru1, ru2]`, yet `ru2`'s input
type `U` is neither in the signature inputs nor *equal* to the output
type of the earlier rule (`ru1` outputs `M`, not `U`) — the literal
dependency-order statement fails. -/
theorem claim_C6_counterexample :
    gC6.find_path 6 ⟨[tyA6], tyB6⟩ = FPRes.ok [ru1, ru2] ∧
    ¬ DepOrderedEq [tyA6] [ru1, ru2] := by
  constructor
  · decide
  · decide

/-- Claim C6 (amended): every plan returned by `find_path` on a
well-formed graph is in dependency order *up to union membership*: each
rule's input types are contained in the Signature's inputs or are
producible by a rule appearing earlier in the list — equal to its output
type, or reachable from it along registered union edges (the
counterexample shows strict output-type equality fails once union edges
participate). -/
theorem claim_C6_amended_dependency_order (g : RulesGraph) (hwf : WF g)
    (fuel : Nat) (sig : Signature) (plan : List Rule)
    (h : g.find_path fuel sig = FPRes.ok plan) :
    DepOrdered g.graph sig.inputs plan := by
  rcases hwf with ⟨_, _, hok, hinj, _⟩
  exact (find_path_ok_props g hinj hok fuel sig plan h).1

/-- Claim C6 amended, witnessed on the counterexample graph: the plan
`[ru1, ru2]` is dependency ordered up to union membership. -/
theorem claim_C6_amended_dependency_order_witness :
    DepOrdered gC6.graph [tyA6] [ru1, ru2] :=
  claim_C6_amended_dependency_order gC6 (by decide) 6 ⟨[tyA6], tyB6⟩
    [ru1, ru2] (by decide)

/- ------------------------------------------------------------------ -/
/- Claim C7: termination of find_path on acyclic graphs.              -/
/- ------------------------------------------------------------------ -/

theorem idxIn_cons_self (x : PyType) (l : List PyType) :
    idxIn (x :: l) x = 0 := by
  simp [idxIn]

theorem idxIn_cons_ne (x v : PyType) (l : List PyType) (h : x ≠ v) :
    idxIn (x :: l) v = idxIn l v + 1 := by
  simp [idxIn, h]

theorem idxIn_lt_length (v : PyType) :
    ∀ l : List PyType, v ∈ l → idxIn l v < l.length
  | [], h => absurd h (List.not_mem_nil v)
  | x :: l, h => by
    by_cases hx : x = v
    · rw [hx, idxIn_cons_self]
      simp
    · rw [idxIn_cons_ne x v l hx]
      have hv : v ∈ l := by
        rcases List.mem_cons.mp h with h' | h'
        · exact absurd h'.symm hx
        · exact h'
      simpa using idxIn_lt_length v l hv

theorem kahn_length (edges : List (PyType × PyType × EdgeData)) :
    ∀ (fuel : Nat) (rem l : List PyType),
      kahn edges fuel rem = some l → l.length = rem.length
  | 0, rem, l, h => by
    simp only [kahn] at h
    by_cases he : rem.isEmpty = true
    · rw [if_pos he] at h
      injection h with h'
      rw [← h', List.isEmpty_iff.mp he]
    · rw [if_neg he] at h
      exact absurd h (by simp)
  | fuel+1, rem, l, h => by
    simp only [kahn] at h
    rcases hf : rem.find? (noInEdge rem edges) with _ | v
    · rw [hf] at h
      by_cases he : rem.isEmpty = true
      · rw [if_pos he] at h
        injection h with h'
        rw [← h', List.isEmpty_iff.mp he]
      · rw [if_neg he] at h
        exact absurd h (by simp)
    · rw [hf] at h
      replace h : (kahn edges fuel (rem.erase v)).map (v :: ·) = some l := h
      rcases hk : kahn edges fuel (rem.erase v) with _ | l'
      · rw [hk] at h
        exact absurd h (by simp)
      · rw [hk] at h
        simp only [Option.map_some'] at h
        injection h with h'
        have hvmem : v ∈ rem := List.mem_of_find?_eq_some hf
        have hlen := kahn_length edges fuel (rem.erase v) l' hk
        rw [← h']
        simp only [List.length_cons, hlen, List.length_erase_of_mem hvmem]
        have : 1 ≤ rem.length := List.length_pos.mpr
          (List.ne_nil_of_mem hvmem)
        omega

theorem kahn_mem (edges : List (PyType × PyType × EdgeData)) :
    ∀ (fuel : Nat) (rem l : List PyType),
      kahn edges fuel rem = some l → ∀ x, x ∈ l ↔ x ∈ rem
  | 0, rem, l, h, x => by
    simp only [kahn] at h
    by_cases he : rem.isEmpty = true
    · rw [if_pos he] at h
      injection h with h'
      rw [← h', List.isEmpty_iff.mp he]
    · rw [if_neg he] at h
      exact absurd h (by simp)
  | fuel+1, rem, l, h, x => by
    simp only [kahn] at h
    rcases hf : rem.find? (noInEdge rem edges) with _ | v
    · rw [hf] at h
      by_cases he : rem.isEmpty = true
      · rw [if_pos he] at h
        injection h with h'
        rw [← h', List.isEmpty_iff.mp he]
      · rw [if_neg he] at h
        exact absurd h (by simp)
    · rw [hf] at h
      replace h : (kahn edges fuel (rem.erase v)).map (v :: ·) = some l := h
      rcases hk : kahn edges fuel (rem.erase v) with _ | l'
      · rw [hk] at h
        exact absurd h (by simp)
      · rw [hk] at h
        simp only [Option.map_some'] at h
        injection h with h'
        have hvmem : v ∈ rem := List.mem_of_find?_eq_some hf
        have hmem := kahn_mem edges fuel (rem.erase v) l' hk
        rw [← h']
        constructor
        · intro hx
          rcases List.mem_cons.mp hx with hx' | hx'
          · exact hx' ▸ hvmem
          · exact List.mem_of_mem_erase ((hmem x).mp hx')
        · intro hx
          by_cases hxv : x = v
          · exact hxv ▸ List.mem_cons_self v l'
          · exact List.mem_cons_of_mem v
              ((hmem x).mpr ((List.mem_erase_of_ne hxv).mpr hx))

theorem kahn_order (edges : List (PyType × PyType × EdgeData)) :
    ∀ (fuel : Nat) (rem l : List PyType), rem.Nodup →
      kahn edges fuel rem = some l →
      ∀ (u v : PyType) (d : EdgeData), (u, v, d) ∈ edges →
        u ∈ rem → v ∈ rem → idxIn l u < idxIn l v
  | 0, rem, l, _, h, u, v, d, _, hu, _ => by
    simp only [kahn] at h
    by_cases he : rem.isEmpty = true
    · rw [List.isEmpty_iff.mp he] at hu
      exact absurd hu (List.not_mem_nil u)
    · rw [if_neg he] at h
      exact absurd h (by simp)
  | fuel+1, rem, l, hnodup, h, u, v, d, hedge, hu, hv => by
    simp only [kahn] at h
    rcases hf : rem.find? (noInEdge rem edges) with _ | v₀
    · rw [hf] at h
      by_cases he : rem.isEmpty = true
      · rw [List.isEmpty_iff.mp he] at hu
        exact absurd hu (List.not_mem_nil u)
      · rw [if_neg he] at h
        exact absurd h (by simp)
    · rw [hf] at h
      replace h : (kahn edges fuel (rem.erase v₀)).map (v₀ :: ·) = some l := h
      rcases hk : kahn edges fuel (rem.erase v₀) with _ | l'
      · rw [hk] at h
        exact absurd h (by simp)
      · rw [hk] at h
        simp only [Option.map_some'] at h
        injection h with h'
        subst h'
        have hv₀ : noInEdge rem edges v₀ = true := List.find?_some hf
        have hnoin : ∀ e ∈ edges, ¬(e.2.1 = v₀ ∧ e.1 ∈ rem) := by
          intro e he hcon
          unfold noInEdge at hv₀
          rw [Bool.not_eq_true'] at hv₀
          have hall := List.any_eq_false.mp hv₀ e he
          apply hall
          simp only [List.contains]
          rw [beq_iff_eq.mpr hcon.1, List.elem_eq_true_of_mem hcon.2]
          rfl
        by_cases hvv : v = v₀
        · exact absurd ⟨hvv, hu⟩ (hnoin (u, v, d) hedge)
        · have hvrem : v ∈ rem.erase v₀ := (List.mem_erase_of_ne hvv).mpr hv
          by_cases huv : u = v₀
          · rw [huv, idxIn_cons_self]
            rw [idxIn_cons_ne v₀ v l' (fun he' => hvv he'.symm)]
            omega
          · have hurem : u ∈ rem.erase v₀ := (List.mem_erase_of_ne huv).mpr hu
            have hih := kahn_order edges fuel (rem.erase v₀) l'
              (List.Nodup.erase v₀ hnodup) hk u v d hedge hurem hvrem
            rw [idxIn_cons_ne v₀ u l' (fun he' => huv he'.symm),
              idxIn_cons_ne v₀ v l' (fun he' => hvv he'.symm)]
            omega

theorem foldl_max_le_init : ∀ (l : List Nat) (a : Nat), a ≤ l.foldl max a
  | [], a => le_refl a
  | x :: l, a =>
    le_trans (Nat.le_max_left a x) (foldl_max_le_init l (max a x))

theorem le_foldl_max : ∀ (l : List Nat) (a x : Nat), x ∈ l → x ≤ l.foldl max a
  | [], _, x, h => absurd h (List.not_mem_nil x)
  | x' :: l, a, x, h => by
    rcases List.mem_cons.mp h with h' | h'
    · subst h'
      exact le_trans (Nat.le_max_right a x) (foldl_max_le_init l (max a x))
    · exact le_foldl_max l (max a x') x h'

theorem le_natMaxList (l : List Nat) (x : Nat) (h : x ∈ l) :
    x ≤ natMaxList l :=
  le_foldl_max l 0 x h

theorem mem_inSources_intro (edges : List (PyType × PyType × EdgeData))
    (u v : PyType) (d : EdgeData) (h : (u, v, d) ∈ edges) :
    u ∈ inSources edges v := by
  unfold inSources
  exact List.mem_map.mpr ⟨(u, v, d), List.mem_filter.mpr ⟨h, by simp⟩, rfl⟩

theorem mem_inSources_elim (edges : List (PyType × PyType × EdgeData))
    (u v : PyType) (h : u ∈ inSources edges v) :
    ∃ d, (u, v, d) ∈ edges := by
  unfold inSources at h
  rcases List.mem_map.mp h with ⟨e, hef, he1⟩
  have hf := List.mem_filter.mp hef
  rcases e with ⟨a, b, d⟩
  have hb : b = v := beq_iff_eq.mp hf.2
  have ha : a = u := he1
  subst hb
  subst ha
  exact ⟨d, hf.1⟩

theorem heightF_stab (edges : List (PyType × PyType × EdgeData))
    (l : List PyType)
    (hord : ∀ e ∈ edges, idxIn l e.1 < idxIn l e.2.1) :
    ∀ (n : Nat) (v : PyType), idxIn l v ≤ n →
      ∀ (f1 f2 : Nat), n < f1 → n < f2 →
        heightF edges f1 v = heightF edges f2 v := by
  intro n
  induction n using Nat.strong_induction_on with
  | _ n IH =>
    intro v hv f1 f2 h1 h2
    cases f1 with
    | zero => omega
    | succ a =>
      cases f2 with
      | zero => omega
      | succ b =>
        simp only [heightF]
        congr 1
        refine List.map_congr_left ?_
        intro u hu
        rcases mem_inSources_elim edges u v hu with ⟨d, hd⟩
        have hlt : idxIn l u < idxIn l v := hord (u, v, d) hd
        have hs := IH (idxIn l u) (by omega) u (le_refl _) a b
          (by omega) (by omega)
        rw [hs]

theorem longestPathTo_edge_lt (G : Graph) (l : List PyType)
    (htopo : G.topo = some l)
    (hepts : ∀ e ∈ G.edges, e.1 ∈ G.nodes ∧ e.2.1 ∈ G.nodes)
    (hnodup : G.nodes.Nodup) :
    ∀ (u v : PyType) (d : EdgeData), (u, v, d) ∈ G.edges →
      G.longestPathTo u < G.longestPathTo v := by
  intro u v d hedge
  have hord : ∀ e ∈ G.edges, idxIn l e.1 < idxIn l e.2.1 := by
    intro e he
    exact kahn_order G.edges G.nodes.length G.nodes l hnodup htopo
      e.1 e.2.1 e.2.2 he (hepts e he).1 (hepts e he).2
  have hul : u ∈ G.nodes := (hepts (u, v, d) hedge).1
  have hvl : v ∈ G.nodes := (hepts (u, v, d) hedge).2
  have hll : l.length = G.nodes.length :=
    kahn_length G.edges G.nodes.length G.nodes l htopo
  have hvl' : v ∈ l := (kahn_mem G.edges G.nodes.length G.nodes l htopo v).mpr hvl
  have hvidx : idxIn l v < G.nodes.length := by
    have hb := idxIn_lt_length v l hvl'
    omega
  have huidx : idxIn l u < idxIn l v := hord (u, v, d) hedge
  rcases hL : G.nodes.length with _ | m
  · omega
  · unfold Graph.longestPathTo
    rw [hL]
    have humem : u ∈ inSources G.edges v := mem_inSources_intro _ _ _ _ hedge
    have hstep : heightF G.edges m u + 1 ≤ heightF G.edges (m+1) v := by
      simp only [heightF]
      refine le_natMaxList _ _ ?_
      exact List.mem_map.mpr ⟨u, humem, rfl⟩
    have hstab := heightF_stab G.edges l hord (idxIn l u) u (le_refl _)
      m (m+1) (by omega) (by omega)
    omega

theorem UPath_longestPathTo_le (G : Graph)
    (hedge_lt : ∀ (u v : PyType) (d : EdgeData), (u, v, d) ∈ G.edges →
      G.longestPathTo u < G.longestPathTo v) :
    ∀ (a b : PyType), UPath G a b →
      G.longestPathTo a ≤ G.longestPathTo b := by
  intro a b h
  induction h with
  | refl => exact le_refl _
  | step hmem _ ih => exact le_trans ih (le_of_lt (hedge_lt _ _ _ hmem))

theorem getRulesAux_ne_none (recur : PyType → Option (List Rule)) :
    ∀ (es : List (PyType × PyType × EdgeData)) (acc : List Rule),
      (∀ e ∈ es, e.2.2 = EdgeData.unionE → recur e.1 ≠ none) →
      getRulesAux recur es acc ≠ none
  | [], acc, _ => by simp [getRulesAux]
  | e :: es, acc, h => by
    simp only [getRulesAux]
    rcases hd : e.2.2 with r | _
    · exact getRulesAux_ne_none recur es _
        (fun e' he' => h e' (List.mem_cons_of_mem e he'))
    · rcases hr : recur e.1 with _ | s
      · exact absurd hr (h e (List.mem_cons_self e es) hd)
      · exact getRulesAux_ne_none recur es _
          (fun e' he' => h e' (List.mem_cons_of_mem e he'))

theorem getRules_fuel_sufficient (g : RulesGraph)
    (hedge_lt : ∀ (u v : PyType) (d : EdgeData), (u, v, d) ∈ g.graph.edges →
      g.graph.longestPathTo u < g.graph.longestPathTo v) :
    ∀ (fuel : Nat) (T : PyType), g.graph.longestPathTo T < fuel →
      g.get_rules_for_output_type fuel T ≠ none
  | 0, T, h => by omega
  | fuel+1, T, h => by
    simp only [RulesGraph.get_rules_for_output_type]
    by_cases hn : T ∈ g.graph.nodes
    · rw [if_pos hn]
      refine getRulesAux_ne_none _ (inEdges g.graph T) [] ?_
      intro e he _
      have hef := List.mem_filter.mp he
      have hT : e.2.1 = T := beq_iff_eq.mp hef.2
      have hlt : g.graph.longestPathTo e.1 < g.graph.longestPathTo T := by
        have hl := hedge_lt e.1 e.2.1 e.2.2 hef.1
        rw [hT] at hl
        exact hl
      exact getRules_fuel_sufficient g hedge_lt fuel e.1 (by omega)
    · rw [if_neg hn]
      simp

theorem buildPre_ne_fuelOut (fp : Signature → FPRes) (inputs : List PyType) :
    ∀ (ts : List PyType) (acc : List Rule),
      (∀ t ∈ ts, fp ⟨inputs, t⟩ ≠ FPRes.fuelOut) →
      buildPre fp inputs ts acc ≠ PreRes.fuelOut
  | [], acc, _ => by simp [buildPre]
  | t :: ts, acc, h => by
    simp only [buildPre]
    rcases hfp : fp ⟨inputs, t⟩ with sub | _ | _ | _
    · exact buildPre_ne_fuelOut fp inputs ts _
        (fun t' ht' => h t' (List.mem_cons_of_mem t ht'))
    · simp
    · simp
    · exact absurd hfp (h t (List.mem_cons_self t ts))

theorem collectPlans_ne_none (fp : Signature → FPRes) (inputs : List PyType) :
    ∀ (cands : List Rule),
      (∀ r ∈ cands,
        buildPre fp inputs (listDiff r.input_types inputs) [] ≠
          PreRes.fuelOut) →
      collectPlans fp inputs cands ≠ none
  | [], _ => by simp [collectPlans]
  | r :: rest, h => by
    simp only [collectPlans]
    rcases hb : buildPre fp inputs (listDiff r.input_types inputs) [] with
      pre | _ | _
    · rcases hc : collectPlans fp inputs rest with _ | results
      · exact absurd hc (collectPlans_ne_none fp inputs rest
          (fun r' hr' => h r' (List.mem_cons_of_mem r hr')))
      · simp
    · exact collectPlans_ne_none fp inputs rest
        (fun r' hr' => h r' (List.mem_cons_of_mem r hr'))
    · exact absurd hb (h r (List.mem_cons_self r rest))

theorem find_path_fuel_sufficient (g : RulesGraph)
    (hok : ∀ e ∈ g.graph.edges, edgeRuleOKb g.graph e = true)
    (hedge_lt : ∀ (u v : PyType) (d : EdgeData), (u, v, d) ∈ g.graph.edges →
      g.graph.longestPathTo u < g.graph.longestPathTo v) :
    ∀ (fuel : Nat) (sig : Signature),
      g.graph.longestPathTo sig.output_type < fuel →
      g.find_path fuel sig ≠ FPRes.fuelOut
  | 0, sig, h => by omega
  | fuel+1, sig, h => by
    simp only [RulesGraph.find_path]
    rcases hc : g.get_rules_for_output_type (fuel+1) sig.output_type with
      _ | cands
    · exact absurd hc
        (getRules_fuel_sufficient g hedge_lt (fuel+1) sig.output_type h)
    · have hplans : collectPlans (g.find_path fuel) sig.inputs cands ≠
          none := by
        refine collectPlans_ne_none _ _ cands ?_
        intro r hr
        refine buildPre_ne_fuelOut _ _ _ [] ?_
        intro t ht
        have hrER : r ∈ edgeRules g.graph :=
          getRules_sub_edgeRules g (fuel+1) sig.output_type cands hc r hr
        have hup : UPath g.graph r.output_type sig.output_type :=
          getRules_UPath g hok (fuel+1) sig.output_type cands r hc hr
        have hle : g.graph.longestPathTo r.output_type ≤
            g.graph.longestPathTo sig.output_type :=
          UPath_longestPathTo_le g.graph hedge_lt _ _ hup
        have htin : t ∈ r.input_types := (List.mem_filter.mp ht).1
        have hedge := edge_rule_inputs g.graph hok r hrER t htin
        have hlt := hedge_lt t r.output_type (EdgeData.ruleE r) hedge
        exact find_path_fuel_sufficient g hok hedge_lt fuel ⟨sig.inputs, t⟩
          (show g.graph.longestPathTo t < fuel by omega)
      rcases hcp : collectPlans (g.find_path fuel) sig.inputs cands with
        _ | results
      · exact absurd hcp hplans
      · simp only [hcp]
        split
        · simp
        · split <;> simp

/-- Claim C7: on a well-formed rule graph that passes the acyclicity
check enforced by `add_rules`, `find_path(sig)` terminates: any fuel
exceeding the length of the longest type-to-type edge path ending at the
requested output type (`longestPathTo`) is never exhausted — the
recursion depth is bounded by that longest path, as each recursive step
descends strictly in longest-path height. -/
theorem claim_C7_find_path_terminates (g : RulesGraph) (hwf : WF g)
    (hdag : is_directed_acyclic_graph g.graph = true)
    (sig : Signature) (fuel : Nat)
    (hfuel : g.graph.longestPathTo sig.output_type < fuel) :
    g.find_path fuel sig ≠ FPRes.fuelOut := by
  rcases hwf with ⟨hnodup, hepts, hok, _, _⟩
  rcases Option.isSome_iff_exists.mp hdag with ⟨l, htopo⟩
  exact find_path_fuel_sufficient g hok
    (longestPathTo_edge_lt g.graph l htopo hepts hnodup) fuel sig hfuel

/-- Claim C7, witnessed: in the diamond graph the longest path into
`int` has length 2, and `find_path` with fuel 4 completes. -/
theorem claim_C7_find_path_terminates_witness :
    gD.find_path 4 ⟨[tyStr], tyInt⟩ ≠ FPRes.fuelOut :=
  claim_C7_find_path_terminates gD (by decide) (by decide)
    ⟨[tyStr], tyInt⟩ 4 (by decide)
